import Mathlib

/-!
Verification development for the `code-recap` blog-post pipeline
(`src/code_recap/generate_blog_post.py`).

The Python source is shallowly embedded: pure string manipulation is
translated to executable Lean functions over `String` / `List Char`;
the version-control backend, the filesystem and the language-model
backend (external collaborators per the specification) are abstracted
as explicit environment records; fallible operations return `Option`.
-/

namespace CodeRecap

/-! ## Basic string utilities (models of Python primitives) -/

/-- The backtick character (code point 96). -/
def btick : Char := Char.ofNat 96

/-- Model of Python's `\s` character class (ASCII range): space, tab,
newline, carriage return, vertical tab, form feed. -/
def isPySpace (c : Char) : Bool :=
  c = ' ' || c = '\t' || c = '\n' || c = '\r' || c = '\x0b' || c = '\x0c'

/-- Model of Python `str(n)` for a natural number: decimal digit string.
`fuel` bounds the recursion; `pyStr` supplies `n + 1`, which always
suffices because the argument is divided by ten at every step. -/
def pyStrAux : Nat → Nat → List Char
  | 0, _ => []
  | fuel + 1, n =>
    if n < 10 then [Nat.digitChar n]
    else pyStrAux fuel (n / 10) ++ [Nat.digitChar (n % 10)]

/-- Model of Python `str(n)` for a natural number. -/
def pyStr (n : Nat) : List Char := pyStrAux (n + 1) n

/-- Model of Python `s.split("\n")`: splits at every newline, keeping
empty pieces; the empty string yields one empty piece. -/
def splitNl (l : List Char) : List (List Char) := l.splitOn '\n'

/-- Model of Python `"\n".join(lines)`. -/
def joinLines (lines : List String) : String :=
  (List.intercalate ['\n'] (lines.map String.data)).asString

/-- Model of Python `s.strip()` restricted to the characters of `\s`:
drops leading and trailing whitespace. -/
def pyStrip (l : List Char) : List Char :=
  ((l.dropWhile isPySpace).reverse.dropWhile isPySpace).reverse

/-- Model of `os.path.basename`: everything after the last `/`. -/
def basename (s : String) : String :=
  (s.data.foldl (fun acc c => if c = '/' then [] else acc ++ [c]) []).asString

/-- Model of `os.path.dirname`: the prefix up to the last `/`, with
trailing slashes stripped unless the prefix is all slashes. -/
def dirname (s : String) : String :=
  let head := (s.data.reverse.dropWhile (· ≠ '/')).reverse
  if head.isEmpty || head.all (· = '/') then head.asString
  else ((head.reverse.dropWhile (· = '/')).reverse).asString

/-- Model of `os.path.join(root, name)` for a relative `name`. -/
def joinPath (root name : String) : String :=
  if root.data.getLast? = some '/' then root ++ name else root ++ "/" ++ name

/-- Model of Python `s.lower()` (ASCII case folding as used for repo
name comparison). -/
def lowerStr (s : String) : String := (s.data.map Char.toLower).asString

/-! ## Data model -/

/-- `CommitInfo` from `code_recap.git_utils` as used by
`generate_blog_post.py`: identity hash, author date, author name,
subject, body, diff text. -/
structure CommitInfo where
  sha : String
  author_date : String
  author_name : String
  subject : String
  body : String
  diff : String
deriving DecidableEq, Repr

/-- `ResearchMetadata` (generate_blog_post.py): the stage-1 artifact. -/
structure ResearchMetadata where
  topic : String
  period : String
  client : String
  author : String
  root : String
  commits : List (String × String)
deriving DecidableEq, Repr

/-! ## Diff truncation (`get_commit_by_sha`, lines 288–295)

The git query itself is external; the truncation logic applied to the
raw `git show` output `diff_out` is translated here verbatim. -/

/-- The trailing line the code appends when a diff is truncated:
`... (truncated, {k} more lines)`. -/
def truncMarker (k : Nat) : List Char :=
  "... (truncated, ".data ++ pyStr k ++ " more lines)".data

/-- Diff-truncation step of `get_commit_by_sha`:
`diff_lines = diff_out.split("\n")`; if over `max_diff_lines`, join the
first `max_diff_lines` lines and append the truncation marker line,
otherwise keep `diff_out` unchanged. -/
def truncateDiff (maxDiffLines : Nat) (diffOut : List Char) : List Char :=
  let diffLines := splitNl diffOut
  if diffLines.length > maxDiffLines then
    (List.intercalate ['\n'] (diffLines.take maxDiffLines)) ++
      ('\n' :: truncMarker (diffLines.length - maxDiffLines))
  else diffOut

/-! ## Reference extraction (`extract_commit_shas_from_research`)

The Python code is a single `re.findall` over the pattern
``` `([a-f0-9]{7,8})`(?:\s*\(([^)]+)\))? ```; the scanner below is a
hand-compilation of that regex: leftmost non-overlapping matches, the
greedy `{7,8}` quantifier, and the optional parenthesized repo hint. -/

/-- `[a-f0-9]`: lowercase hex digit. -/
def hexLower (c : Char) : Bool :=
  c.isDigit || ('a' ≤ c && c ≤ 'f')

/-- Matches the optional `(?:\s*\(([^)]+)\))?` suffix starting right
after the closing backtick: on success returns the raw group and the
remainder after `)`; on failure the group is absent and scanning
resumes right after the backtick. -/
def parseHint (tail : List Char) : Option (List Char) × List Char :=
  let afterWs := tail.dropWhile isPySpace
  match afterWs with
  | '(' :: t2 =>
    let inner := t2.takeWhile (· ≠ ')')
    match t2.drop inner.length with
    | ')' :: t3 => if inner.isEmpty then (none, tail) else (some inner, t3)
    | _ => (none, tail)
  | _ => (none, tail)

/-- Tries to match the commit-reference regex at the head of the input:
a backtick, 7 or 8 lowercase hex digits (greedy, so a run of 9 or more
hex digits never matches), a closing backtick, then the optional hint.
Returns `(sha, raw hint or none, remainder)`. -/
def tryMatch : List Char → Option (String × Option (List Char) × List Char)
  | c :: rest =>
    if c = btick then
      let run := rest.takeWhile hexLower
      let after := rest.drop run.length
      if (run.length = 7 ∨ run.length = 8) ∧ after.head? = some btick then
        some (run.asString, (parseHint after.tail).1, (parseHint after.tail).2)
      else none
    else none
  | [] => none

/-- After a group match, `repo.strip() if repo else ""`; an absent
group yields the empty string. -/
def hintToName (h : Option (List Char)) : String :=
  match h with
  | none => ""
  | some l => (pyStrip l).asString

/-- Leftmost non-overlapping scan of `re.findall`, driven by `fuel`
(one unit per input position; `fuel = length + 1` always suffices
because every step consumes at least one character). -/
def extractAux : Nat → List Char → List (String × String)
  | 0, _ => []
  | _ + 1, [] => []
  | fuel + 1, c :: rest =>
    match tryMatch (c :: rest) with
    | some t => (t.1, hintToName t.2.1) :: extractAux fuel t.2.2
    | none => extractAux fuel rest

/-- `extract_commit_shas_from_research`: all commit references
`(sha_prefix, repo_name)` in the content, in document order. -/
def extract_commit_shas_from_research (content : String) : List (String × String) :=
  extractAux (content.data.length + 1) content.data

/-! ### The claim-side family of well-formed documents

Stating that extraction returns *exactly* the backticked references in
document order, duplicates preserved, needs a description of which
references a document contains.  Following the lexical contract, a
document is separator text interleaved with references: a backticked
id-prefix optionally followed by whitespace and a parenthesized repo
name.  These definitions construct inputs from the claim's words; they
model no code of the repository. -/

/-- The `key: value` and commit-item lines inside the metadata block,
exactly as built by `format_research_metadata` (the `commits:` section
is emitted only when the list is nonempty). -/
def metaLines (m : ResearchMetadata) : List String :=
  ["topic: " ++ m.topic, "period: " ++ m.period, "client: " ++ m.client,
   "author: " ++ m.author, "root: " ++ m.root] ++
  (if m.commits.isEmpty then []
   else "commits:" ::
     m.commits.flatMap (fun p => ["  - sha: " ++ p.1, "    repo: " ++ p.2]))

/-- `format_research_metadata`: the YAML-in-HTML-comment block,
lines joined with `"\n"`. -/
def format_research_metadata (m : ResearchMetadata) : String :=
  joinLines (["<!-- blog-research-meta"] ++ metaLines m ++ ["-->"])

/-- The document produced by `run_research_stage` (line 569):
`# Research: {topic}\n\n{metadata}\n\n{content}`. -/
def researchDoc (m : ResearchMetadata) (content : String) : String :=
  "# Research: " ++ m.topic ++ "\n\n" ++ format_research_metadata m ++
    "\n\n" ++ content

/-- The characters between the opening marker's newline and the
newline that precedes the closing `-->`: the joined metadata lines. -/
def metaInner (m : ResearchMetadata) : List Char :=
  List.intercalate ['\n'] ((metaLines m).map String.data)

/-! ## Metadata decoding (`parse_research_metadata`)

The Python decoder is `re.search` for
`<!--\s*blog-research-meta\s*\n(.*?)\n-->` (DOTALL) followed by
`yaml.safe_load` on the captured group.  The regex is hand-compiled
below.  `yaml.safe_load` is an external library; it is modelled by a
parser faithful to PyYAML's behavior on the restricted block grammar
the encoder emits (a flat `key: value` mapping with one optional
sequence-of-flat-mappings key).  The model is conservative: inputs
outside this grammar make the parser fail, which the decoder maps to
the same observable result (`None`) that the Python code produces for
them, either through the `except` clause or through the subsequent
attribute errors that the `except` clause also catches. -/

/-- A scalar Python value produced by YAML plain-scalar resolution. -/
inductive SVal where
  | str (s : String)
  | pynone
  | int (n : Int)
  | bool (b : Bool)
deriving DecidableEq, Repr

/-- A Python value stored in the parsed mapping: a scalar or a
sequence of flat mappings (the shape of the `commits` list). -/
inductive YVal where
  | scalar (v : SVal)
  | seq (items : List (List (String × SVal)))
deriving DecidableEq, Repr

/-- PyYAML's `tag:yaml.org,2002:null` resolver tokens (besides the
empty scalar, handled separately). -/
def nullToks : List (List Char) := ["~".data, "null".data, "Null".data, "NULL".data]

/-- PyYAML's `tag:yaml.org,2002:bool` resolver tokens. -/
def boolToks : List (List Char) :=
  ["yes".data, "Yes".data, "YES".data, "no".data, "No".data, "NO".data,
   "true".data, "True".data, "TRUE".data, "false".data, "False".data, "FALSE".data,
   "on".data, "On".data, "ON".data, "off".data, "Off".data, "OFF".data]

/-- The bool tokens that resolve to Python `True`. -/
def trueToks : List (List Char) :=
  ["yes".data, "Yes".data, "YES".data, "true".data, "True".data, "TRUE".data,
   "on".data, "On".data, "ON".data]

/-- Digit value of a character in a given base, skipping `_`
(YAML 1.1 allows underscores in numeric literals). -/
def digitsVal (base : Nat) (l : List Char) : Int :=
  l.foldl (fun acc c =>
    if c = '_' then acc
    else acc * (base : Int) + (c.toNat - (if c.isDigit then '0'.toNat
      else if 'a' ≤ c ∧ c ≤ 'f' then 'a'.toNat - 10 else 'A'.toNat - 10) : Int)) 0

/-- Body of PyYAML's int resolver (after an optional sign):
`0b[0-1_]+`, `0x[0-9a-fA-F_]+`, `0[0-7_]+`, or `0|[1-9][0-9_]*`.
Sexagesimal integers (`1:30`) are not modelled; colons never reach
this point in the restricted grammar. -/
def intBody : List Char → Option Int
  | [] => none
  | c :: rest =>
    if c = '0' then
      if rest.isEmpty then some 0
      else if rest.head? = some 'b' then
        if !rest.tail.isEmpty &&
            rest.tail.all (fun d => d = '0' ∨ d = '1' ∨ d = '_') then
          some (digitsVal 2 rest.tail)
        else none
      else if rest.head? = some 'x' then
        if !rest.tail.isEmpty && rest.tail.all (fun d => d.isDigit ∨
            ('a' ≤ d ∧ d ≤ 'f') ∨ ('A' ≤ d ∧ d ≤ 'F') ∨ d = '_') then
          some (digitsVal 16 rest.tail)
        else none
      else if rest.all (fun d => ('0' ≤ d ∧ d ≤ '7') ∨ d = '_') then
        some (digitsVal 8 rest)
      else none
    else if '1' ≤ c ∧ c ≤ '9' then
      if rest.all (fun d => d.isDigit ∨ d = '_') then
        some (digitsVal 10 (c :: rest))
      else none
    else none

/-- PyYAML int resolution including the optional sign. -/
def intTok (l : List Char) : Option Int :=
  match l with
  | [] => none
  | c :: rest =>
    if c = '+' then intBody rest
    else if c = '-' then (intBody rest).map (- ·)
    else intBody l

/-- Plain-scalar resolution, as PyYAML applies it to the values of the
restricted grammar: empty and null tokens give `None`, bool tokens a
bool, int tokens an int, everything else the string itself.  Floats,
timestamps and sexagesimals are not modelled; the safety predicates
used by the round-trip theorem exclude every token those resolvers
accept (they all require a leading digit, sign or dot). -/
def scalarResolve (l : List Char) : SVal :=
  if l.isEmpty then .pynone
  else if l ∈ nullToks then .pynone
  else if l ∈ boolToks then .bool (l ∈ trueToks)
  else
    match intTok l with
    | some n => .int n
    | none => .str l.asString

/-- Splits a line at its first `:` into key and raw remainder; PyYAML
requires the colon to be followed by a space or end of line, strips
the value, and rejects a further `: ` inside the value (nested mapping
error).  Lines without a colon are plain scalars, an error in block-
mapping context. -/
def splitFirstColon : List Char → Option (List Char × List Char)
  | [] => none
  | c :: r =>
    if c = ':' then some ([], r)
    else (splitFirstColon r).map (fun p => (c :: p.1, p.2))

/-- `True` when the list contains `':'` immediately followed by `' '`. -/
def hasColonSpace : List Char → Bool
  | [] => false
  | c :: r => (c = ':' && r.head? = some ' ') || hasColonSpace r

/-- Parses one `key: value` (or `key:`) line of the restricted
grammar; returns the key and the stripped raw value characters. -/
def parseKVLine (l : List Char) : Option (String × List Char) :=
  match splitFirstColon l with
  | none => none
  | some (k, after) =>
    if after.isEmpty then some (k.asString, [])
    else if after.head? = some ' ' then
      if hasColonSpace after.tail then none
      else some (k.asString, pyStrip after.tail)
    else none

/-- One item mapping of the `commits:` sequence being accumulated. -/
abbrev YItem := List (String × SVal)

/-- Pending state while inside a block sequence: the key that owns the
sequence, the completed items, and the item currently being extended. -/
abbrev PendSeq := String × List YItem × Option YItem

/-- Closes a pending sequence into the accumulated mapping: no items
at all means the key's value was the empty scalar (`None`). -/
def closePend (acc : List (String × YVal)) : Option PendSeq → List (String × YVal)
  | none => acc
  | some (k, items, cur) =>
    let all := items ++ cur.toList
    acc ++ [(k, if all.isEmpty then .scalar .pynone else .seq all)]

/-- Line-by-line parser for the restricted block grammar (model of
`yaml.safe_load` on the captured group).  `"  - key: v"` starts a new
sequence item under the pending key; `"    key: v"` extends the
current item; any other indented line, a top-level `- ` item, or an
unparsable line is a failure (PyYAML errors, or produces a non-dict
document on which the subsequent attribute accesses raise — both reach
the decoder's `except` path). -/
def yamlLines (acc : List (String × YVal)) (pend : Option PendSeq) :
    List (List Char) → Option (List (String × YVal))
  | [] => some (closePend acc pend)
  | l :: rest =>
    if ("  - ".data.isPrefixOf l) && pend.isSome then
      match pend with
      | some (k, items, cur) =>
        match parseKVLine (l.drop 4) with
        | none => none
        | some (k2, v) =>
          yamlLines acc (some (k, items ++ cur.toList, some [(k2, scalarResolve v)])) rest
      | none => none
    else if ("    ".data.isPrefixOf l) && (pend.bind (·.2.2)).isSome then
      match pend with
      | some (k, items, some cur) =>
        match parseKVLine (l.drop 4) with
        | none => none
        | some (k2, v) =>
          yamlLines acc (some (k, items, some (cur ++ [(k2, scalarResolve v)]))) rest
      | _ => none
    else if l.head? = some ' ' then none
    else if "- ".data.isPrefixOf l then none
    else
      match parseKVLine l with
      | none => none
      | some (k, v) =>
        let acc' := closePend acc pend
        if v.isEmpty then yamlLines acc' (some (k, [], none)) rest
        else yamlLines (acc' ++ [(k, .scalar (scalarResolve v))]) none rest

/-- Python `dict` lookup on the parsed association list: later
occurrences of a key overwrite earlier ones. -/
def dictGet (data : List (String × YVal)) (k : String) : Option YVal :=
  (data.reverse.find? (fun p => p.1 == k)).map (·.2)

/-- Python `dict` lookup inside one sequence item. -/
def itemGet (item : YItem) (k : String) : Option SVal :=
  (item.reverse.find? (fun p => p.1 == k)).map (·.2)

/-! ### The metadata-comment regex -/

/-- Characters of the whitespace run strictly after its last `'\n'`. -/
def afterLastNl (run : List Char) : List Char :=
  run.foldl (fun acc c => if c = '\n' then [] else acc ++ [c]) []

/-- The capture of the non-greedy `(.*?)\n-->`: the prefix before the
first occurrence of `"\n-->"`, or `none` when there is none (the whole
match fails at this position). -/
def splitAtClose : List Char → Option (List Char)
  | [] => none
  | c :: rest =>
    if "\n-->".data.isPrefixOf (c :: rest) then some []
    else (splitAtClose rest).map (c :: ·)

/-- Attempts the metadata-block regex at the head of the input:
literal `<!--`, greedy `\s*` (necessarily maximal since the next
literal starts with a non-space), literal `blog-research-meta`, then
`\s*\n` — the maximal whitespace run must contain a `'\n'` and the
capture starts after the last one (greedy `\s*` with backtracking into
the final `\n`) — then the non-greedy capture up to `\n-->`. -/
def matchMetaAt (cs : List Char) : Option (List Char) :=
  (cs.dropPrefix? "<!--".data).bind (fun r1 =>
    ((r1.dropWhile isPySpace).dropPrefix? "blog-research-meta".data).bind (fun r3 =>
      if (r3.takeWhile isPySpace).contains '\n' then
        splitAtClose (afterLastNl (r3.takeWhile isPySpace) ++
          r3.drop (r3.takeWhile isPySpace).length)
      else none))

/-- `re.search` for the metadata-block pattern: the leftmost position
where the pattern matches, returning the captured group. -/
def findMetaBlock : List Char → Option (List Char)
  | [] => none
  | c :: rest =>
    match matchMetaAt (c :: rest) with
    | some g => some g
    | none => findMetaBlock rest

/-! ### `parse_research_metadata` -/

/-- The decoded artifact with Python-valued fields: each scalar field
holds whatever value `data.get(key, "")` returned, and each commit
entry the raw `(c["sha"], c["repo"])` pair. -/
structure PMeta where
  topic : YVal
  period : YVal
  client : YVal
  author : YVal
  root : YVal
  commits : List (SVal × SVal)
deriving DecidableEq, Repr

/-- `data.get(key, "")`. -/
def pyGet (data : List (String × YVal)) (k : String) : YVal :=
  (dictGet data k).getD (.scalar (.str ""))

/-- One pass of the commits loop: entries are kept when the item has
both a `sha` and a `repo` key. -/
def itemToPair (item : YItem) : Option (SVal × SVal) :=
  match itemGet item "sha", itemGet item "repo" with
  | some s, some r => some (s, r)
  | _, _ => none

/-- The `commits` extraction: absent or falsy values give the empty
list; a truthy string iterates over characters, none of which is a
dict, so it also gives the empty list; a truthy int or bool is not
iterable and raises (caught by the decoder's `except`, giving `none`);
a nonempty sequence collects the items that have both keys. -/
def commitsOf (data : List (String × YVal)) : Option (List (SVal × SVal)) :=
  match dictGet data "commits" with
  | Option.none => some []
  | some (.scalar .pynone) => some []
  | some (.scalar (.str _)) => some []
  | some (.scalar (.int n)) => if n = 0 then some [] else none
  | some (.scalar (.bool b)) => if b then none else some []
  | some (.seq items) => some (items.filterMap itemToPair)

/-- `parse_research_metadata`: locate the metadata comment, parse the
YAML, and build the artifact; any failure yields `none`. -/
def parse_research_metadata (content : String) : Option PMeta :=
  match findMetaBlock content.data with
  | Option.none => none
  | some block =>
    match yamlLines [] none (splitNl block) with
    | Option.none => none
    | some data =>
      if data.isEmpty then none
      else
        match commitsOf data with
        | Option.none => none
        | some commits =>
          some { topic := pyGet data "topic", period := pyGet data "period",
                 client := pyGet data "client", author := pyGet data "author",
                 root := pyGet data "root", commits := commits }

/-- The Python value of a well-formed artifact: every field the
corresponding string, every commit entry a pair of strings.  The
round-trip claim asserts `parse ∘ encode` reproduces exactly this. -/
def PMeta.ofMeta (m : ResearchMetadata) : PMeta :=
  { topic := .scalar (.str m.topic), period := .scalar (.str m.period),
    client := .scalar (.str m.client), author := .scalar (.str m.author),
    root := .scalar (.str m.root),
    commits := m.commits.map (fun p => (.str p.1, .str p.2)) }

/-! ## The version-control environment

The spec treats the git backend as a black box.  The helpers of
`code_recap.git_utils` (`discover_top_level_repos`,
`discover_all_submodules`, `get_commits_with_diffs`) and the result of
`get_commit_by_sha` (whose git query goes through `run_git`) are
abstracted as an explicit environment: arbitrary functions from paths
to results, fixed for one run. -/

/-- The git world one run observes. `getCommit repoPath sha` stands
for `get_commit_by_sha(repo_path, sha, max_diff_lines)` at the run's
fixed `max_diff_lines`; `commitsOf repoPath` stands for
`get_commits_with_diffs` at the run's fixed period and author
filter. -/
structure GitEnv where
  isDir : String → Bool
  topRepos : String → List String
  subRepos : String → List String
  getCommit : String → String → Option CommitInfo
  commitsOf : String → List CommitInfo

/-! ## Repository location (`find_repo_by_name`) -/

/-- The loop of `find_repo_by_name`: for each top-level repo in
discovery order, first its basename (case-insensitively), then the
basenames of its direct submodules, before moving to the next repo. -/
def findRepoLoop (env : GitEnv) (repoName : String) : List String → Option String
  | [] => none
  | rp :: rest =>
    if lowerStr (basename rp) = lowerStr repoName then some rp
    else
      match (env.subRepos rp).find?
          (fun sp => lowerStr (basename sp) = lowerStr repoName) with
      | some sp => some sp
      | none => findRepoLoop env repoName rest

/-- `find_repo_by_name`: the exact direct child check, then the scan
over top-level repos and their submodules. -/
def find_repo_by_name (env : GitEnv) (root repoName : String) : Option String :=
  if env.isDir (joinPath root repoName) then some (joinPath root repoName)
  else findRepoLoop env repoName (env.topRepos root)

/-! ## Commit resolution (`retrieve_referenced_commits`) -/

/-- The fallback scan over all repositories: query each top-level repo
and, inside it, each submodule.  A hit in a top-level repo `break`s
the outer loop; a hit in a submodule only `break`s the inner loop, so
the outer scan continues with the next repository — translated
verbatim from the source. -/
def scanAllRepos (env : GitEnv) (sha : String) : List String → List (String × CommitInfo)
  | [] => []
  | rp :: rest =>
    match env.getCommit rp sha with
    | some c => [(basename rp, c)]
    | none =>
      (match (env.subRepos rp).findSome? (fun sp => (env.getCommit sp sha).map (sp, ·)) with
       | some (sp, c) => [(basename sp, c)]
       | none => []) ++ scanAllRepos env sha rest

/-- The entries appended for a single reference: the repo hint is
tried first when nonempty; on a miss (or no hint) the full scan
runs. -/
def resolveOneRef (env : GitEnv) (root sha repoName : String) : List (String × CommitInfo) :=
  let scan := scanAllRepos env sha (env.topRepos root)
  if repoName ≠ "" then
    match find_repo_by_name env root repoName with
    | some rp =>
      match env.getCommit rp sha with
      | some c => [(repoName, c)]
      | none => scan
    | none => scan
  else scan

/-- The reference loop of `retrieve_referenced_commits`, with the
`seen_shas` set threaded explicitly. -/
def retrieveLoop (env : GitEnv) (root : String) :
    List (String × String) → List String → List (String × CommitInfo)
  | [], _ => []
  | (sha, repoName) :: rest, seen =>
    if sha ∈ seen then retrieveLoop env root rest seen
    else resolveOneRef env root sha repoName ++ retrieveLoop env root rest (sha :: seen)

/-- `retrieve_referenced_commits` for string-valued references (the
shapes the claims quantify over): combines the metadata commits with
the extracted references, defaults the root, and resolves each
first-seen id-prefix. -/
def retrieve_referenced_commits (env : GitEnv) (metaRoot : String)
    (metaCommits additionalRefs : List (String × String)) (cwd : String) :
    List (String × CommitInfo) :=
  let root := if metaRoot = "" then dirname cwd else metaRoot
  retrieveLoop env root (metaCommits ++ additionalRefs) []

/-! ## Commit harvesting (`gather_commits_for_period`) -/

/-- Appends the commits of one repository, skipping identities already
seen and recording the new ones. -/
def dedupAdd (repoName : String) : List CommitInfo → List String →
    List (String × CommitInfo) × List String
  | [], seen => ([], seen)
  | c :: cs, seen =>
    if c.sha ∈ seen then dedupAdd repoName cs seen
    else
      let (r, seen') := dedupAdd repoName cs (c.sha :: seen)
      ((repoName, c) :: r, seen')

/-- The submodule loop inside one repository of
`gather_commits_for_period`. -/
def gatherSubs (env : GitEnv) : List String → List String →
    List (String × CommitInfo) × List String
  | [], seen => ([], seen)
  | sp :: sps, seen =>
    let (here, seen1) := dedupAdd (basename sp) (env.commitsOf sp) seen
    let (there, seen2) := gatherSubs env sps seen1
    (here ++ there, seen2)

/-- The repo loop of `gather_commits_for_period`: each top-level repo
followed immediately by its submodules. -/
def gatherLoop (env : GitEnv) : List String → List String → List (String × CommitInfo)
  | [], _ => []
  | rp :: rest, seen =>
    let (main, seen1) := dedupAdd (basename rp) (env.commitsOf rp) seen
    let (subs, seen2) := gatherSubs env (env.subRepos rp) seen1
    main ++ subs ++ gatherLoop env rest seen2

/-- `gather_commits_for_period`: all commits of the repos and their
submodules over the period, deduplicated by commit identity. -/
def gather_commits_for_period (env : GitEnv) (repos : List String) :
    List (String × CommitInfo) :=
  gatherLoop env repos []

/-- The undeduplicated encounter order the spec describes: top-level
repos in input order, each immediately followed by its submodules. -/
def encounterList (env : GitEnv) (repos : List String) : List (String × CommitInfo) :=
  repos.flatMap (fun rp =>
    (env.commitsOf rp).map (fun c => (basename rp, c)) ++
      (env.subRepos rp).flatMap (fun sp =>
        (env.commitsOf sp).map (fun c => (basename sp, c))))

/-- Generic first-occurrence-wins deduplication by commit identity,
following the spec's words; compared with the implementation. -/
def firstWinsAux : List (String × CommitInfo) → List String →
    List (String × CommitInfo) × List String
  | [], seen => ([], seen)
  | (n, c) :: rest, seen =>
    if c.sha ∈ seen then firstWinsAux rest seen
    else
      let (r, seen') := firstWinsAux rest (c.sha :: seen)
      ((n, c) :: r, seen')

/-- First-occurrence-wins deduplication, starting from no seen
identities. -/
def firstWins (l : List (String × CommitInfo)) : List (String × CommitInfo) :=
  (firstWinsAux l []).1

/-! ## Cost tracking and model invocation

`CostTracker` and `call_llm` live in `summarize_activity`, which is
not under `src/`; only their use sites are.  Modelled from the spec:
§2/§3 — a tracker is running input/output token totals, accumulated
cost and call count, fresh (all zero) per stage; §4.6 — `invoke`
performs its upstream call with **no pre-call budget check** (the
budget argument does not influence the call), then accumulates
tokens, cost and count into the tracker.  Costs are modelled as
rationals. -/

/-- Modelled from the spec: the cost tracker of `summarize_activity`
(running token totals, accumulated cost, call count), field names as
used by `cmd_full`. -/
structure CostTracker where
  total_input_tokens : Nat
  total_output_tokens : Nat
  total_cost : ℚ
  calls : Nat
deriving DecidableEq, Repr

/-- A freshly constructed tracker: all totals zero. -/
def CostTracker.init : CostTracker := ⟨0, 0, 0, 0⟩

/-- The model backend: for given system and user prompts, the
generated text, input tokens, output tokens and priced cost of the
one upstream call.  Deterministic within a run; the run's model name
and temperature are fixed inside it. -/
structure LLMEnv where
  call : String → String → String × Nat × Nat × ℚ

/-- Modelled from the spec: `call_llm` — issues exactly one upstream
call regardless of the budget (no pre-call check, §4.6), then
accumulates usage into the tracker.  The `maxCost` argument is
received but cannot stop the first call of a sequence. -/
def call_llm (llm : LLMEnv) (systemPrompt userPrompt : String)
    (tracker : CostTracker) (maxCost : ℚ) : String × CostTracker :=
  let r := llm.call systemPrompt userPrompt
  (r.1,
   { total_input_tokens := tracker.total_input_tokens + r.2.1,
     total_output_tokens := tracker.total_output_tokens + r.2.2.1,
     total_cost := tracker.total_cost + r.2.2.2,
     calls := tracker.calls + 1 })

/-! ## Prompt formatting -/

/-- Lexicographic order on code points — Python string `<=` as used by
`sorted(key=...)`. -/
def lexLe : List Char → List Char → Bool
  | [], _ => true
  | _ :: _, [] => false
  | a :: as, b :: bs => if a = b then lexLe as bs else decide (a < b)

/-- Stable insertion of one commit into a date-sorted list (equal
dates keep their original relative order, as Python's stable sort
does). -/
def insertByDate (x : String × CommitInfo) :
    List (String × CommitInfo) → List (String × CommitInfo)
  | [] => [x]
  | y :: ys =>
    if lexLe y.2.author_date.data x.2.author_date.data then y :: insertByDate x ys
    else x :: y :: ys

/-- Model of `sorted(commits, key=lambda x: x[1].author_date)`: a
stable sort by author date (insertion sort; stable sorts agree). -/
def sortByDate : List (String × CommitInfo) → List (String × CommitInfo)
  | [] => []
  | x :: xs => insertByDate x (sortByDate xs)

/-- The per-commit block of `format_commits_for_prompt`. -/
def commitBlock (p : String × CommitInfo) : List String :=
  ["## Commit: " ++ (p.2.sha.data.take 8).asString ++ " (" ++ p.1 ++ ")",
   "**Date**: " ++ p.2.author_date,
   "**Author**: " ++ p.2.author_name,
   "**Subject**: " ++ p.2.subject] ++
  (if p.2.body ≠ "" then ["**Body**:\n" ++ p.2.body] else []) ++ [""] ++
  (if p.2.diff ≠ "" then ["**Diff**:", "```diff", p.2.diff, "```"] else []) ++
  ["", "---", ""]

/-- `format_commits_for_prompt`. -/
def format_commits_for_prompt (commits : List (String × CommitInfo)) : String :=
  if commits.isEmpty then "No commits found in the specified period."
  else
    joinLines
      (["# Git Commits (" ++ (pyStr commits.length).asString ++ " total)", ""] ++
        (sortByDate commits).flatMap commitBlock)

/-- Stand-in for the long literal research-stage prompt template; no
claim depends on the prompt text.  The config-derived context strings
appended to it are supplied by an external collaborator and are
omitted from the model. -/
def RESEARCH_SYSTEM_PROMPT : String := "RESEARCH_SYSTEM_PROMPT"

/-- Stand-in for the long literal write-stage prompt template. -/
def WRITE_SYSTEM_PROMPT : String := "WRITE_SYSTEM_PROMPT"

/-- The user prompt of the research stage (`dateRange` stands for the
interpolated `{start_date} to {end_date}`). -/
def researchUserPrompt (topic dateRange commitsText : String) : String :=
  "# Blog Post Topic\n" ++ topic ++ "\n\n# Time Period\n" ++ dateRange ++
    "\n\n" ++ commitsText ++
    "\n\nPlease analyze these commits and identify changes relevant to the blog post topic."

/-- The user prompt of the write stage. -/
def writeUserPrompt (researchContent commitsText : String) : String :=
  "# Research Summary\n\n" ++ researchContent ++
    "\n\n# Full Diffs for Referenced Commits\n\n" ++ commitsText ++
    "\n\nPlease write a blog post based on this research. Use the actual code from the diffs for examples."

/-! ## Stage 1 (`run_research_stage`) -/

/-- The fixed document returned when harvesting finds no commits. -/
def noCommitsDoc : String :=
  "# Research: No Commits Found\n\nNo commits were found in the specified period."

/-- The research-stage dry-run stub content. -/
def dryRunResearchStub (n : Nat) : String :=
  "*(Dry run - " ++ (pyStr n).asString ++ " commits would be analyzed)*"

/-- `run_research_stage`: harvest, early-return on no commits, one
model call (or the dry-run stub), reference extraction, metadata
encoding, document assembly. -/
def run_research_stage (genv : GitEnv) (llm : LLMEnv) (topic : String)
    (repos : List String) (author periodStr client root dateRange : String)
    (maxCost : ℚ) (dryRun : Bool) : String × CostTracker :=
  let tracker := CostTracker.init
  let commits := gather_commits_for_period genv repos
  if commits.isEmpty then (noCommitsDoc, tracker)
  else
    let commitsText := format_commits_for_prompt commits
    let userPrompt := researchUserPrompt topic dateRange commitsText
    let r :=
      if dryRun then (dryRunResearchStub commits.length, tracker)
      else call_llm llm RESEARCH_SYSTEM_PROMPT userPrompt tracker maxCost
    let extractedRefs := extract_commit_shas_from_research r.1
    (researchDoc ⟨topic, periodStr, client, author, root, extractedRefs⟩ r.1, r.2)

/-! ## Stage 2 (`run_write_stage`) -/

/-- The write-stage dry-run stub content. -/
def dryRunWriteStub : String :=
  "*(Dry run - blog post would be generated from research)*"

/-- Plumbing of decoded Python values into the resolver, which the
claims state over strings.  String values pass through; `None` maps to
`""`, which coincides with Python behavior wherever such values arise
from encoder output (both are falsy).  Truthy non-string values would
make the Python resolver raise inside `os.path`/`run_git`; they arise
only from hand-edited metadata and are outside every theorem's scope
(modelled as `""`). -/
def svalToStr : SVal → String
  | .str s => s
  | .pynone => ""
  | .int _ => ""
  | .bool _ => ""

/-- `metadata.root or os.path.dirname(os.getcwd())` as used by the
resolver: a falsy root (`""` or `None`) falls back to the default;
non-string truthy roots are outside every theorem's scope. -/
def yvalRootStr : YVal → String
  | .scalar (.str s) => s
  | _ => ""

/-- The observable outcome of `run_write_stage` on given research
content: the blog text, the stage's tracker, the metadata object the
stage used, and whether the missing-metadata warning was printed. -/
structure WriteStageResult where
  blog : String
  tracker : CostTracker
  usedMeta : PMeta
  warnedNoMetadata : Bool
deriving Repr

/-- The default metadata used when parsing fails: every string field
empty, commits empty, root the parent of the current directory. -/
def defaultPMeta (cwd : String) : PMeta :=
  PMeta.ofMeta ⟨"", "", "", "", dirname cwd, []⟩

/-- The body of `run_write_stage` after the research file has been
read: metadata decoding with defaults, re-extraction over the whole
document, commit resolution, prompt assembly, and one model call (or
the dry-run stub). -/
def run_write_stage_content (genv : GitEnv) (llm : LLMEnv)
    (researchContent cwd : String) (maxCost : ℚ) (dryRun : Bool) : WriteStageResult :=
  let tracker := CostTracker.init
  let parsed := parse_research_metadata researchContent
  let meta := parsed.getD (defaultPMeta cwd)
  let additionalRefs := extract_commit_shas_from_research researchContent
  let metaCommits := meta.commits.map (fun p => (svalToStr p.1, svalToStr p.2))
  let referencedCommits :=
    retrieve_referenced_commits genv (yvalRootStr meta.root) metaCommits additionalRefs cwd
  let commitsText :=
    if referencedCommits.isEmpty then "(No referenced commits could be retrieved)"
    else format_commits_for_prompt referencedCommits
  let userPrompt := writeUserPrompt researchContent commitsText
  let r :=
    if dryRun then (dryRunWriteStub, tracker)
    else call_llm llm WRITE_SYSTEM_PROMPT userPrompt tracker maxCost
  ⟨r.1, r.2, meta, parsed.isNone⟩

/-! ## Filesystem and orchestration (`cmd_research`, `cmd_write`,
`cmd_full`)

A filesystem is an association of paths to contents; a write shadows
earlier contents of the path. -/

/-- Path-indexed text store. -/
abbrev FS := List (String × String)

/-- Writing a file (overwrites any previous content of the path). -/
def fsWrite (fs : FS) (path content : String) : FS := (path, content) :: fs

/-- Reading a file; `none` models a missing file. -/
def fsRead (fs : FS) (path : String) : Option String :=
  (fs.find? (·.1 == path)).map (·.2)

/-- `run_write_stage` proper: opens the research file from disk and
runs the stage on its contents; a missing file is fatal. -/
def run_write_stage (genv : GitEnv) (llm : LLMEnv) (fs : FS)
    (researchPath cwd : String) (maxCost : ℚ) (dryRun : Bool) :
    Option WriteStageResult :=
  (fsRead fs researchPath).map
    (fun content => run_write_stage_content genv llm content cwd maxCost dryRun)

/-- The per-run arguments shared by the commands (repository
discovery, filtering and config loading have already happened; the
spec excludes them). -/
structure RunArgs where
  topic : String
  period : String
  client : String
  author : String
  root : String
  dateRange : String
  repos : List String
  maxCost : ℚ
  dryRun : Bool
  stdoutFlag : Bool
  cwd : String
deriving Repr

/-- `cmd_research` with an explicit output path: runs stage 1 and
persists the research document.  Returns the new filesystem, the
document and the stage tracker. -/
def cmd_research (genv : GitEnv) (llm : LLMEnv) (fs : FS) (a : RunArgs)
    (outputPath : String) : FS × String × CostTracker :=
  let r := run_research_stage genv llm a.topic a.repos a.author a.period a.client
    a.root a.dateRange a.maxCost a.dryRun
  (fsWrite fs outputPath r.1, r.1, r.2)

/-- `cmd_write`: requires the research file to exist, runs stage 2 on
its on-disk contents with the full budget of this invocation, and
persists the post next to the research file (unless writing to
stdout). -/
def cmd_write (genv : GitEnv) (llm : LLMEnv) (fs : FS) (researchPath : String)
    (a : RunArgs) : Option (FS × String × CostTracker) :=
  match fsRead fs researchPath with
  | none => none
  | some _ =>
    match run_write_stage genv llm fs researchPath a.cwd a.maxCost a.dryRun with
    | none => none
    | some w =>
      let fs' := if a.stdoutFlag then fs
        else fsWrite fs (dirname researchPath ++ "/post.md") w.blog
      some (fs', w.blog, w.tracker)

/-- The observable outcome of a `full` run. -/
structure FullResult where
  fs : FS
  researchPath : String
  postPath : String
  researchOut : String
  blogOut : String
  researchTracker : CostTracker
  writeTracker : CostTracker
  writeBudget : ℚ
deriving Repr

/-- `cmd_full`: stage 1, persist `research.md`, then stage 2 reading
that file back from disk with the remaining budget
`max_cost - total_cost.total_cost`, then persist `post.md` (unless
writing to stdout). -/
def cmd_full (genv : GitEnv) (llm : LLMEnv) (fs : FS) (a : RunArgs)
    (outputDir : String) : FullResult :=
  let researchPath := outputDir ++ "/research.md"
  let postPath := outputDir ++ "/post.md"
  let r := run_research_stage genv llm a.topic a.repos a.author a.period a.client
    a.root a.dateRange a.maxCost a.dryRun
  let fs1 := fsWrite fs researchPath r.1
  let writeBudget := a.maxCost - r.2.total_cost
  match run_write_stage genv llm fs1 researchPath a.cwd writeBudget a.dryRun with
  | none => ⟨fs1, researchPath, postPath, r.1, "", r.2, CostTracker.init, writeBudget⟩
  | some w =>
    let fs2 := if a.stdoutFlag then fs1 else fsWrite fs1 postPath w.blog
    ⟨fs2, researchPath, postPath, r.1, w.blog, r.2, w.tracker, writeBudget⟩

/-! ## Safety predicates for the round-trip theorem

The round-trip claim fails for arbitrary strings (YAML resolves empty
values to `None`, bool/null words to non-strings, numeric-looking
tokens to numbers, and structural characters break the block).  The
predicates below carve out plain text values on which the encoding is
provably inverted; they are deliberately conservative (for instance,
every variant of a bool word is excluded case-insensitively, and
values must start with a letter, `/` or `_` — which rules out every
token PyYAML's numeric, float and timestamp resolvers accept, since
those all require a leading digit, sign or dot). -/

/-- ASCII letter. -/
def isAsciiAlpha (c : Char) : Bool :=
  ('a' ≤ c && c ≤ 'z') || ('A' ≤ c && c ≤ 'Z')

/-- The character allowlist for plain text values: letters, digits,
space, `-`, `_`, `.`, `/`.  Excludes every YAML indicator, `:`≠`#`,
the comment delimiters `<` `>` `!`, backticks and newlines. -/
def plainChar (c : Char) : Bool :=
  isAsciiAlpha c || c.isDigit || c = ' ' || c = '-' || c = '_' || c = '.' || c = '/'

/-- Allowed first characters: rules out digits and signs (hence every
numeric, float and timestamp token), `-` (sequence indicator), space,
and `~`. -/
def firstOk (c : Char) : Bool :=
  isAsciiAlpha c || c = '/' || c = '_'

/-- Case-insensitive membership in the YAML bool/null word lists. -/
def yamlWordLike (s : String) : Bool :=
  ["yes", "no", "true", "false", "on", "off", "null"].contains (lowerStr s)

/-- A string whose encoded `key: value` line decodes back to the same
string: nonempty plain text, starting with a letter, `/` or `_`, not
ending in a space, and not a case variant of a YAML bool/null word. -/
def ValSafe (s : String) : Prop :=
  s.data ≠ [] ∧ (∀ c ∈ s.data, plainChar c = true) ∧
    (∀ c, s.data.head? = some c → firstOk c = true) ∧
    s.data.getLast? ≠ some ' ' ∧ yamlWordLike s = false

/-- A commit id-prefix that YAML keeps as a string: 7 or 8 lowercase
hex digits, at least one of them a letter (excludes decimal and octal
tokens), and not a `0b` binary token. -/
def ShaSafe (s : String) : Prop :=
  (s.data.length = 7 ∨ s.data.length = 8) ∧
    (∀ c ∈ s.data, hexLower c = true) ∧
    (∃ c ∈ s.data, 'a' ≤ c ∧ c ≤ 'f') ∧
    ¬("0b".data.isPrefixOf s.data ∧ ∀ c ∈ s.data.drop 2, c = '0' ∨ c = '1')

/-- A well-formed artifact within the provable round-trip fragment. -/
def MetaSafe (m : ResearchMetadata) : Prop :=
  ValSafe m.topic ∧ ValSafe m.period ∧ ValSafe m.client ∧ ValSafe m.author ∧
    ValSafe m.root ∧ ∀ p ∈ m.commits, ShaSafe p.1 ∧ ValSafe p.2

/-! ## Concrete environments used by counterexamples and witnesses -/

/-- A root with repositories `A` and `X`, where `A` has a submodule
also named `x`: the locator's scan meets `A`'s submodule before the
top-level `X`. -/
def envC8 : GitEnv where
  isDir := fun p => p = "/r" || p = "/r/A" || p = "/r/X" || p = "/r/A/libs/x"
  topRepos := fun r => if r = "/r" then ["/r/A", "/r/X"] else []
  subRepos := fun p => if p = "/r/A" then ["/r/A/libs/x"] else []
  getCommit := fun _ _ => none
  commitsOf := fun _ => []

/-- The commit used by the resolver counterexample, reachable both in
`R1`'s submodule `S` and in the top-level `R2`. -/
def cmitC2 : CommitInfo :=
  ⟨"abc1234f00dfeed", "2025-09-01 10:00:00 +0000", "jane", "fix it", "", "diff"⟩

/-- A root with repositories `R1` (submodule `S`) and `R2`, where the
commit `abc1234` resolves in both `S` and `R2`. -/
def envC2 : GitEnv where
  isDir := fun p => p = "/r" || p = "/r/R1" || p = "/r/R2" || p = "/r/R1/sub/S"
  topRepos := fun r => if r = "/r" then ["/r/R1", "/r/R2"] else []
  subRepos := fun p => if p = "/r/R1" then ["/r/R1/sub/S"] else []
  getCommit := fun p sha =>
    if sha = "abc1234" && (p = "/r/R1/sub/S" || p = "/r/R2") then some cmitC2 else none
  commitsOf := fun _ => []

/-- A model backend with unit usage, for witnesses. -/
def llmUnit : LLMEnv := ⟨fun _ _ => ("model output", 1, 2, 1)⟩

/-- The commit harvested in the budget counterexample. -/
def cmitC3 : CommitInfo :=
  ⟨"beef123aa55", "2025-09-02 09:00:00 +0000", "jane", "add feature", "", "diff text"⟩

/-- A root with a single repository holding one commit. -/
def envC3 : GitEnv where
  isDir := fun p => p = "/r" || p = "/r/R1"
  topRepos := fun r => if r = "/r" then ["/r/R1"] else []
  subRepos := fun _ => []
  getCommit := fun _ _ => none
  commitsOf := fun p => if p = "/r/R1" then [cmitC3] else []

/-- A model backend whose single research call costs exactly 1. -/
def llmC3 : LLMEnv := ⟨fun _ _ => ("analysis text", 10, 20, 1)⟩

/-- A `full` run whose budget equals the stage-1 cost of `llmC3`, not
in dry-run mode. -/
def argsC3 : RunArgs :=
  ⟨"Topic", "2025-09", "Acme", "jane", "/r", "2025-09-01 to 2025-09-30",
   ["/r/R1"], 1, false, false, "/home/u/work"⟩

/-! # Lemmas and theorems -/

/-! ## Line splitting -/

theorem splitNl_ne_nil (l : List Char) : splitNl l ≠ [] :=
  List.splitOnP_ne_nil _ l

theorem splitNl_eq_single {a : List Char} (h : '\n' ∉ a) : splitNl a = [a] := by
  refine List.splitOnP_eq_single _ _ (fun x hx => ?_)
  simp only [beq_iff_eq]
  exact fun hc => h (hc ▸ hx)

theorem splitNl_append {a : List Char} (b : List Char) (h : '\n' ∉ a) :
    splitNl (a ++ '\n' :: b) = a :: splitNl b := by
  refine List.splitOnP_first _ _ (fun x hx => ?_) '\n' (by simp) b
  simp only [beq_iff_eq]
  exact fun hc => h (hc ▸ hx)

theorem not_nl_mem_splitNl (l : List Char) : ∀ x ∈ splitNl l, '\n' ∉ x := by
  induction l with
  | nil =>
    intro x hx
    simp only [splitNl, List.splitOn, List.splitOnP_nil, List.mem_singleton] at hx
    simp [hx]
  | cons c rest ih =>
    intro x hx
    simp only [splitNl, List.splitOn, List.splitOnP_cons] at hx ih
    by_cases hc : c = '\n'
    · rw [if_pos (by simp [hc])] at hx
      rcases List.mem_cons.mp hx with h | h
      · simp [h]
      · exact ih x h
    · rw [if_neg (by simp [hc])] at hx
      obtain ⟨h, t, he⟩ := List.exists_cons_of_ne_nil (List.splitOnP_ne_nil (· == '\n') rest)
      rw [he, List.modifyHead_cons] at hx
      rcases List.mem_cons.mp hx with h1 | h1
      · subst h1
        intro hmem
        rcases List.mem_cons.mp hmem with h2 | h2
        · exact hc h2.symm
        · exact ih h (he ▸ List.mem_cons_self h t) h2
      · exact ih x (he ▸ List.mem_cons_of_mem h h1)

theorem intercalate_append_single {α : Type} (s : α) (xs : List (List α))
    (m : List α) (hxs : xs ≠ []) :
    List.intercalate [s] (xs ++ [m]) = List.intercalate [s] xs ++ s :: m := by
  induction xs with
  | nil => exact absurd rfl hxs
  | cons x t ih =>
    cases t with
    | nil => simp [List.intercalate, List.intersperse]
    | cons y u =>
      have h2 := ih (by simp)
      simp only [List.intercalate, List.cons_append, List.intersperse] at h2 ⊢
      simp [h2]

theorem splitNl_intercalate_marker {xs : List (List Char)} {m : List Char}
    (hxs : xs ≠ []) (hfree : ∀ x ∈ xs, '\n' ∉ x) (hm : '\n' ∉ m) :
    splitNl (List.intercalate ['\n'] xs ++ '\n' :: m) = xs ++ [m] := by
  rw [← intercalate_append_single '\n' xs m hxs]
  refine List.splitOn_intercalate (xs ++ [m]) '\n' ?_ (by simp)
  intro l hl
  rcases List.mem_append.mp hl with h | h
  · exact hfree l h
  · rw [List.mem_singleton.mp h]; exact hm

theorem digitChar_ne_nl (m : Nat) : Nat.digitChar m ≠ '\n' := by
  by_cases h : m < 16
  · interval_cases m <;> decide
  · unfold Nat.digitChar
    repeat rw [if_neg (by omega)]
    decide

theorem pyStrAux_no_nl (fuel n : Nat) : '\n' ∉ pyStrAux fuel n := by
  induction fuel generalizing n with
  | zero => simp [pyStrAux]
  | succ f ih =>
    unfold pyStrAux
    split
    · simp only [List.mem_singleton]
      exact fun h => digitChar_ne_nl n h.symm
    · intro hmem
      rcases List.mem_append.mp hmem with h | h
      · exact ih (n / 10) h
      · exact digitChar_ne_nl (n % 10) (List.mem_singleton.mp h).symm

theorem truncMarker_no_nl (k : Nat) : '\n' ∉ truncMarker k := by
  intro hmem
  unfold truncMarker at hmem
  rcases List.mem_append.mp hmem with h | h
  · rcases List.mem_append.mp h with h1 | h1
    · revert h1; decide
    · exact pyStrAux_no_nl _ _ h1
  · revert h; decide

/-! ## C5 — diff truncation -/

/-- C5 (amended to `max_diff_lines ≥ 1`): for every `N ≥ 1` and every
diff text `d`, if `d` has more than `N` lines the stored diff is
exactly the first `N` lines followed by the single line reporting the
omitted count, and otherwise `d` is stored unchanged. -/
theorem c5_truncation (N : Nat) (d : List Char) (hN : 1 ≤ N) :
    ((splitNl d).length > N →
      splitNl (truncateDiff N d) =
        (splitNl d).take N ++ [truncMarker ((splitNl d).length - N)]) ∧
    ((splitNl d).length ≤ N → truncateDiff N d = d) := by
  constructor
  · intro hgt
    unfold truncateDiff
    rw [if_pos (by simpa using hgt)]
    refine splitNl_intercalate_marker ?_ ?_ (truncMarker_no_nl _)
    · have hlen : ((splitNl d).take N).length = N := by
        rw [List.length_take]
        omega
      intro hnil
      rw [hnil] at hlen
      simp at hlen
      omega
    · intro x hx
      exact not_nl_mem_splitNl d x (List.take_subset N (splitNl d) hx)
  · intro hle
    unfold truncateDiff
    rw [if_neg (by omega)]

/-- Witness for C5: a 4-line diff truncated to 2 lines, and a 2-line
diff kept whole under a limit of 4. -/
theorem c5_truncation_witness :
    (splitNl (truncateDiff 2 "a\nb\nc\nd".data) =
      (splitNl "a\nb\nc\nd".data).take 2 ++
        [truncMarker ((splitNl "a\nb\nc\nd".data).length - 2)]) ∧
    truncateDiff 4 "a\nb".data = "a\nb".data :=
  ⟨(c5_truncation 2 "a\nb\nc\nd".data (by decide)).1 (by decide),
   (c5_truncation 4 "a\nb".data (by decide)).2 (by decide)⟩

/-- Counterexample to C5 as stated: with `max_diff_lines = 0` and a
one-line diff, the stored diff is an empty line plus the marker line —
not "exactly the first 0 content lines plus one trailing line". -/
theorem c5_counterexample :
    splitNl (truncateDiff 0 "a".data) ≠
      (splitNl "a".data).take 0 ++ [truncMarker ((splitNl "a".data).length - 0)] := by
  decide

/-! ## C6 — reference extraction -/

theorem dedupAdd_eq_firstWinsAux (n : String) (cs : List CommitInfo)
    (seen : List String) :
    dedupAdd n cs seen = firstWinsAux (cs.map (fun c => (n, c))) seen := by
  induction cs generalizing seen with
  | nil => rfl
  | cons c rest ih =>
    simp only [dedupAdd, List.map_cons, firstWinsAux]
    by_cases h : c.sha ∈ seen
    · rw [if_pos h, if_pos h, ih]
    · rw [if_neg h, if_neg h, ih]

theorem firstWinsAux_append (l1 l2 : List (String × CommitInfo))
    (seen : List String) :
    firstWinsAux (l1 ++ l2) seen =
      ((firstWinsAux l1 seen).1 ++ (firstWinsAux l2 (firstWinsAux l1 seen).2).1,
       (firstWinsAux l2 (firstWinsAux l1 seen).2).2) := by
  induction l1 generalizing seen with
  | nil => simp [firstWinsAux]
  | cons p rest ih =>
    obtain ⟨n, c⟩ := p
    by_cases h : c.sha ∈ seen
    · simp only [List.cons_append, firstWinsAux, if_pos h]
      exact ih seen
    · simp only [List.cons_append, firstWinsAux, if_neg h, List.append_eq]
      rw [ih (c.sha :: seen)]

theorem gatherSubs_eq (env : GitEnv) (sps : List String) (seen : List String) :
    gatherSubs env sps seen =
      firstWinsAux (sps.flatMap (fun sp =>
        (env.commitsOf sp).map (fun c => (basename sp, c)))) seen := by
  induction sps generalizing seen with
  | nil => rfl
  | cons sp rest ih =>
    simp only [gatherSubs, List.flatMap_cons]
    rw [firstWinsAux_append, dedupAdd_eq_firstWinsAux, ih]

theorem gatherLoop_eq (env : GitEnv) (repos : List String) (seen : List String) :
    gatherLoop env repos seen = (firstWinsAux (encounterList env repos) seen).1 := by
  induction repos generalizing seen with
  | nil => rfl
  | cons rp rest ih =>
    simp only [gatherLoop, encounterList, List.flatMap_cons]
    rw [firstWinsAux_append, firstWinsAux_append, dedupAdd_eq_firstWinsAux,
      gatherSubs_eq, ih]
    simp [encounterList, List.append_assoc]

theorem firstWinsAux_nodup (l : List (String × CommitInfo)) (seen : List String) :
    ((firstWinsAux l seen).1.map (fun p => p.2.sha)).Nodup ∧
      ∀ p ∈ (firstWinsAux l seen).1, p.2.sha ∉ seen := by
  induction l generalizing seen with
  | nil => simp [firstWinsAux]
  | cons q rest ih =>
    obtain ⟨n, c⟩ := q
    simp only [firstWinsAux]
    by_cases h : c.sha ∈ seen
    · rw [if_pos h]
      exact ih seen
    · rw [if_neg h]
      obtain ⟨ihn, ihs⟩ := ih (c.sha :: seen)
      refine ⟨?_, ?_⟩
      · simp only [List.map_cons, List.nodup_cons]
        refine ⟨?_, ihn⟩
        intro hmem
        obtain ⟨p, hp, hps⟩ := List.mem_map.mp hmem
        exact ihs p hp (hps ▸ List.mem_cons_self c.sha seen)
      · intro p hp
        rcases List.mem_cons.mp hp with h1 | h1
        · subst h1; exact h
        · exact fun hs => ihs p h1 (List.mem_cons_of_mem _ hs)

/-- C4: `gather_commits_for_period` equals first-occurrence-wins
deduplication by commit identity over the spec's encounter order
(top-level repos in input order, each immediately followed by its
submodules) — so each identity is kept once, attributed to its first
encounter — and the returned identities are pairwise distinct. -/
theorem c4_gather_dedup (env : GitEnv) (repos : List String) :
    gather_commits_for_period env repos = firstWins (encounterList env repos) ∧
      ((gather_commits_for_period env repos).map (fun p => p.2.sha)).Nodup := by
  constructor
  · exact gatherLoop_eq env repos []
  · rw [show gather_commits_for_period env repos =
        (firstWinsAux (encounterList env repos) []).1 from gatherLoop_eq env repos []]
    exact (firstWinsAux_nodup _ _).1

/-! ## C8 — repository location order -/

/-- C8 (amended): `find_repo_by_name` first checks the exact direct
child, then scans the repositories in discovery order checking, for
each one, its own basename case-insensitively and then the basenames
of its direct submodules — i.e. steps (b) and (c) are interleaved per
repository rather than (b) completing before (c) starts; first match
wins. -/
theorem c8_find_repo_order (env : GitEnv) (root name : String) :
    find_repo_by_name env root name =
      if env.isDir (joinPath root name) then some (joinPath root name)
      else ((env.topRepos root).flatMap (fun rp => rp :: env.subRepos rp)).find?
        (fun p => lowerStr (basename p) = lowerStr name) := by
  unfold find_repo_by_name
  by_cases hd : env.isDir (joinPath root name)
  · rw [if_pos hd, if_pos hd]
  · rw [if_neg hd, if_neg hd]
    induction env.topRepos root with
    | nil => rfl
    | cons rp rest ih =>
      simp only [findRepoLoop, List.flatMap_cons, List.cons_append, List.find?_cons]
      by_cases hm : lowerStr (basename rp) = lowerStr name
      · rw [if_pos hm]
        simp [hm]
      · rw [if_neg hm]
        have : (decide (lowerStr (basename rp) = lowerStr name)) = false := by
          simp [hm]
        rw [this]
        rw [List.find?_append]
        cases hf : (env.subRepos rp).find?
            (fun sp => lowerStr (basename sp) = lowerStr name) with
        | none => simp only [hf, Option.none_or]; exact ih
        | some sp => simp [hf]

/-- Counterexample to C8 as stated: searching for `x` under `/r`
returns repository `A`'s submodule `/r/A/libs/x` even though the
top-level repository `/r/X` also matches case-insensitively — a
submodule is matched before every top-level basename was checked. -/
theorem c8_counterexample :
    find_repo_by_name envC8 "/r" "x" = some "/r/A/libs/x" ∧
      "/r/X" ∈ envC8.topRepos "/r" ∧
      lowerStr (basename "/r/X") = lowerStr "x" ∧
      find_repo_by_name envC8 "/r" "x" ≠ some "/r/X" := by
  refine ⟨by decide, by decide, by decide, by decide⟩

/-! ## C2 — commit resolution -/

/-- C2, evaluated at the failing input: for the single reference
`("abc1234", "")` (no repo hint), with the commit present both in
`R1`'s submodule `S` and in the top-level `R2`, the resolver appends
*two* entries for the one distinct id-prefix — the `break` after a
submodule hit only exits the submodule loop, so the outer scan
continues instead of stopping at the first repository that resolved
the commit. -/
theorem c2_resolver_double_append :
    retrieve_referenced_commits envC2 "/r" [("abc1234", "")] [] "/home/u/cwd" =
      [("S", cmitC2), ("R2", cmitC2)] := by
  decide

/-! ## C10 — empty harvest short-circuits the research stage -/

/-- C10: whenever harvesting returns no commits, the research stage
returns the fixed `No Commits Found` document with a zero-cost,
zero-call tracker, for every budget and for both dry-run settings —
no model call is ever issued. -/
theorem c10_no_commits (genv : GitEnv) (llm : LLMEnv) (topic : String)
    (repos : List String) (author periodStr client root dateRange : String)
    (maxCost : ℚ) (dryRun : Bool)
    (h : gather_commits_for_period genv repos = []) :
    run_research_stage genv llm topic repos author periodStr client root dateRange
      maxCost dryRun = (noCommitsDoc, CostTracker.init) := by
  unfold run_research_stage
  rw [h]
  rfl

/-- Witness for C10: a root whose repositories report no commits. -/
theorem c10_no_commits_witness :
    gather_commits_for_period envC8 ["/r/A", "/r/X"] = [] ∧
      run_research_stage envC8 llmUnit "t" ["/r/A", "/r/X"] "jane" "2025-09" "Acme"
        "/r" "range" 1 false = (noCommitsDoc, CostTracker.init) :=
  ⟨by decide,
   c10_no_commits envC8 llmUnit "t" ["/r/A", "/r/X"] "jane" "2025-09" "Acme"
     "/r" "range" 1 false (by decide)⟩

/-! ## C7 — decode degrades to defaults -/

/-- C7: a document with no metadata block decodes to `none` (the
total decoder cannot raise), and whenever decoding yields `none` the
write stage proceeds with the default metadata — every string field
empty, commit list empty, root the parent of the working directory —
and prints the warning. -/
theorem c7_decode_defaults (genv : GitEnv) (llm : LLMEnv) (content cwd : String)
    (maxCost : ℚ) (dryRun : Bool) :
    (findMetaBlock content.data = none → parse_research_metadata content = none) ∧
    (parse_research_metadata content = none →
      (run_write_stage_content genv llm content cwd maxCost dryRun).usedMeta =
          PMeta.ofMeta ⟨"", "", "", "", dirname cwd, []⟩ ∧
        (run_write_stage_content genv llm content cwd maxCost dryRun).warnedNoMetadata =
          true) := by
  constructor
  · intro h
    unfold parse_research_metadata
    rw [h]
  · intro h
    unfold run_write_stage_content
    rw [h]
    exact ⟨rfl, rfl⟩

/-- Witness for C7: a plain document without any metadata comment. -/
theorem c7_decode_defaults_witness :
    parse_research_metadata "just some research notes" = none ∧
      (run_write_stage_content envC8 llmUnit "just some research notes" "/home/u/w"
          1 false).usedMeta = PMeta.ofMeta ⟨"", "", "", "", dirname "/home/u/w", []⟩ :=
  ⟨(c7_decode_defaults envC8 llmUnit "just some research notes" "/home/u/w" 1
      false).1 (by decide),
   ((c7_decode_defaults envC8 llmUnit "just some research notes" "/home/u/w" 1
      false).2 ((c7_decode_defaults envC8 llmUnit "just some research notes"
        "/home/u/w" 1 false).1 (by decide))).1⟩

/-! ## C3 — stage-2 budget in a `full` run -/

theorem fsRead_fsWrite (fs : FS) (p c : String) :
    fsRead (fsWrite fs p c) p = some c := by
  simp [fsRead, fsWrite, List.find?_cons]

/-- The write stage ignores its budget argument inside a single
invocation: the modelled invoker has no pre-call budget check. -/
theorem write_stage_budget_irrelevant (genv : GitEnv) (llm : LLMEnv)
    (content cwd : String) (b1 b2 : ℚ) (dry : Bool) :
    run_write_stage_content genv llm content cwd b1 dry =
      run_write_stage_content genv llm content cwd b2 dry := rfl

/-- Reading back the artifact the run itself just wrote always
succeeds. -/
theorem run_write_stage_some (genv : GitEnv) (llm : LLMEnv) (fs : FS)
    (p c cwd : String) (b : ℚ) (dry : Bool) :
    run_write_stage genv llm (fsWrite fs p c) p cwd b dry =
      some (run_write_stage_content genv llm c cwd b dry) := by
  unfold run_write_stage
  rw [fsRead_fsWrite]
  rfl

/-- C3 (amended): in a `full` run the budget passed to stage 2 is
exactly the original budget minus the actual stage-1 cost (no implicit
top-up), but stage 2 enters the stub mode only when `--dry-run` was
given: with `dry_run` false it issues exactly one model call even when
the remaining budget is zero or negative. -/
theorem c3_stage2_budget (genv : GitEnv) (llm : LLMEnv) (fs : FS) (a : RunArgs)
    (outputDir : String) :
    (cmd_full genv llm fs a outputDir).writeBudget =
        a.maxCost - (cmd_full genv llm fs a outputDir).researchTracker.total_cost ∧
      (a.dryRun = true → (cmd_full genv llm fs a outputDir).writeTracker.calls = 0) ∧
      (a.dryRun = false → (cmd_full genv llm fs a outputDir).writeTracker.calls = 1) := by
  simp only [cmd_full, run_write_stage_some]
  refine ⟨trivial, ?_, ?_⟩ <;> intro hd <;>
    simp [run_write_stage_content, hd, call_llm, CostTracker.init]

/-- Counterexample to C3 as stated: with budget 1 and a stage-1 call
costing exactly 1 (so the stage-1 cost consumes the whole budget) and
`dry_run` false, stage 2 still issues one model call instead of zero. -/
theorem c3_counterexample :
    (cmd_full envC3 llmC3 [] argsC3 "/out").researchTracker.total_cost =
        argsC3.maxCost ∧
      (cmd_full envC3 llmC3 [] argsC3 "/out").writeTracker.calls = 1 := by
  refine ⟨?_, ?_⟩
  · show (0 : ℚ) + 1 = 1
    exact zero_add 1
  · rfl

/-! ## C9 — a `full` run equals research-then-write on the persisted
file -/

/-- C9: the `full` run persists its stage-1 document and hands stage 2
only the file path; running the research command (persisting to the
same path) and then the write command on that file yields the same
persisted research contents and the same blog output.  The separate
write command runs with its own full budget, which cannot change the
output because the invoker has no pre-call budget check. -/
theorem c9_full_run_equivalence (genv : GitEnv) (llm : LLMEnv) (fs : FS)
    (a : RunArgs) (outputDir : String) :
    (cmd_research genv llm fs a (outputDir ++ "/research.md")).1 =
        fsWrite fs (outputDir ++ "/research.md")
          (cmd_research genv llm fs a (outputDir ++ "/research.md")).2.1 ∧
      (cmd_full genv llm fs a outputDir).researchOut =
        (cmd_research genv llm fs a (outputDir ++ "/research.md")).2.1 ∧
      (cmd_write genv llm (cmd_research genv llm fs a (outputDir ++ "/research.md")).1
          (outputDir ++ "/research.md") a).map (fun t => t.2.1) =
        some (cmd_full genv llm fs a outputDir).blogOut := by
  refine ⟨rfl, ?_, ?_⟩
  · simp only [cmd_full, cmd_research, run_write_stage_some]
  · simp only [cmd_full, cmd_research, cmd_write, run_write_stage_some,
      fsRead_fsWrite]
    rw [write_stage_budget_irrelevant genv llm
      (run_research_stage genv llm a.topic a.repos a.author a.period a.client
        a.root a.dateRange a.maxCost a.dryRun).1 a.cwd a.maxCost
      (a.maxCost - (run_research_stage genv llm a.topic a.repos a.author a.period
        a.client a.root a.dateRange a.maxCost a.dryRun).2.total_cost) a.dryRun]
    rfl

/-! ## C1 — round trip; character and scalar-resolution lemmas -/

theorem asString_of_data (s : String) : List.asString s.data = s := rfl

theorem plainChar_not_special {c : Char} (h : plainChar c = true) :
    c ≠ '<' ∧ c ≠ '>' ∧ c ≠ '\n' ∧ c ≠ ':' :=
  ⟨fun he => by subst he; revert h; decide, fun he => by subst he; revert h; decide,
   fun he => by subst he; revert h; decide, fun he => by subst he; revert h; decide⟩

theorem plainChar_not_space {c : Char} (h : plainChar c = true) (hs : c ≠ ' ') :
    isPySpace c = false := by
  rcases hps : isPySpace c with _ | _
  · rfl
  · exfalso
    unfold isPySpace at hps
    simp only [Bool.or_eq_true, decide_eq_true_eq] at hps
    rcases hps with ((((h1 | h1) | h1) | h1) | h1) | h1 <;> subst h1 <;>
      first | exact hs rfl | exact absurd h (by decide)

theorem firstOk_plain {c : Char} (h : firstOk c = true) : plainChar c = true := by
  simp only [firstOk, Bool.or_eq_true, decide_eq_true_eq] at h
  rcases h with (h1 | h1) | h1
  · simp [plainChar, h1]
  · subst h1; decide
  · subst h1; decide

theorem firstOk_not_space {c : Char} (h : firstOk c = true) : isPySpace c = false := by
  refine plainChar_not_space (firstOk_plain h) ?_
  intro he; subst he; revert h; decide

theorem not_digit_range_of_firstOk {c : Char} (h : firstOk c = true) :
    c ≠ '0' ∧ ¬('1' ≤ c ∧ c ≤ '9') ∧ c ≠ '+' ∧ c ≠ '-' := by
  simp only [firstOk, isAsciiAlpha, Bool.or_eq_true, Bool.and_eq_true,
    decide_eq_true_eq] at h
  rcases h with ((⟨h1, h2⟩ | ⟨h1, h2⟩) | h1) | h1
  · refine ⟨fun he => by subst he; exact absurd h1 (by decide),
      fun hr => absurd (le_trans h1 hr.2) (by decide),
      fun he => by subst he; exact absurd h1 (by decide),
      fun he => by subst he; exact absurd h1 (by decide)⟩
  · refine ⟨fun he => by subst he; exact absurd h1 (by decide),
      fun hr => absurd (le_trans h1 hr.2) (by decide),
      fun he => by subst he; exact absurd h1 (by decide),
      fun he => by subst he; exact absurd h1 (by decide)⟩
  · subst h1; exact ⟨by decide, by decide, by decide, by decide⟩
  · subst h1; exact ⟨by decide, by decide, by decide, by decide⟩

theorem intTok_none_of_firstOk {c : Char} (h : firstOk c = true) (rest : List Char) :
    intTok (c :: rest) = none := by
  obtain ⟨h0, h19, hp, hm⟩ := not_digit_range_of_firstOk h
  simp only [intTok, intBody]
  rw [if_neg hp, if_neg hm, if_neg h0, if_neg h19]

theorem word_toks_like : ∀ w ∈ nullToks ++ boolToks,
    yamlWordLike (List.asString w) = true ∨ w = "~".data := by
  decide

theorem word_toks_not_hex : ∀ w ∈ nullToks ++ boolToks,
    ∃ c ∈ w, hexLower c = false := by
  decide

theorem scalarResolve_valSafe {s : String} (h : ValSafe s) :
    scalarResolve s.data = .str s := by
  obtain ⟨hne, hall, hfirst, hlast, hword⟩ := h
  have hmem : s.data ∉ nullToks ++ boolToks := by
    intro hmem
    rcases word_toks_like s.data hmem with hw | hw
    · rw [asString_of_data] at hw
      exact absurd hw (by rw [hword]; decide)
    · have : s.data.head? = some '~' := by rw [hw]; rfl
      exact absurd (hfirst '~' this) (by decide)
  obtain ⟨c, rest, hcr⟩ := List.exists_cons_of_ne_nil hne
  have hfc : firstOk c = true := hfirst c (by rw [hcr]; rfl)
  unfold scalarResolve
  rw [if_neg (by simp [hne]), if_neg (fun hm => hmem (List.mem_append_left _ hm)),
    if_neg (fun hm => hmem (List.mem_append_right _ hm))]
  rw [show intTok s.data = none from hcr ▸ intTok_none_of_firstOk hfc rest]
  rw [asString_of_data]

theorem hexLower_cases {d : Char} (h : hexLower d = true) :
    d.isDigit = true ∨ ('a' ≤ d ∧ d ≤ 'f') := by
  unfold hexLower at h
  simpa using h

theorem hex_letter_not_digit {d : Char} (h1 : 'a' ≤ d) : d.isDigit = false := by
  have h1n : 97 ≤ d.val.toNat := h1
  rcases hd : d.isDigit with _ | _
  · rfl
  · exfalso
    unfold Char.isDigit at hd
    simp only [Bool.and_eq_true, decide_eq_true_eq] at hd
    have : d.val.toNat ≤ 57 := hd.2
    omega

theorem digit_le_nine {d : Char} (h : d.isDigit = true) : d ≤ '9' := by
  unfold Char.isDigit at h
  simp only [Bool.and_eq_true, decide_eq_true_eq] at h
  exact h.2

theorem hexLower_ne {d : Char} (h : hexLower d = true) :
    d ≠ '_' ∧ d ≠ 'x' ∧ d ≠ '~' :=
  ⟨fun he => by subst he; revert h; decide, fun he => by subst he; revert h; decide,
   fun he => by subst he; revert h; decide⟩

theorem scalarResolve_shaSafe {s : String} (h : ShaSafe s) :
    scalarResolve s.data = .str s := by
  obtain ⟨hlen, hall, ⟨w, hwmem, hw1, hw2⟩, hbin⟩ := h
  have hne : s.data ≠ [] := by
    intro he; rw [he] at hlen; simp at hlen
  have hmem : s.data ∉ nullToks ++ boolToks := by
    intro hmem
    obtain ⟨c, hcm, hcf⟩ := word_toks_not_hex s.data hmem
    exact absurd (hall c hcm) (by simp [hcf])
  obtain ⟨c, rest, hcr⟩ := List.exists_cons_of_ne_nil hne
  have hchex : hexLower c = true := hall c (by rw [hcr]; exact List.mem_cons_self c rest)
  have hint : intTok s.data = none := by
    rw [hcr]
    rcases hexLower_cases hchex with hcd | hca
    · -- the head is a digit: every int form needs the letter `w` to be
      -- a digit, underscore or octal/binary digit, which it is not
      have hwrest : w ∈ rest := by
        rcases List.mem_cons.mp (hcr ▸ hwmem) with he | he
        · exfalso
          subst he
          exact absurd hcd (by simp [hex_letter_not_digit hw1])
        · exact he
      have hcp : c ≠ '+' := fun he => by subst he; revert hcd; decide
      have hcm : c ≠ '-' := fun he => by subst he; revert hcd; decide
      simp only [intTok, intBody]
      rw [if_neg hcp, if_neg hcm]
      by_cases hc0 : c = '0'
      · rw [if_pos hc0]
        have hrne : rest.isEmpty = false := by
          rcases rest with _ | _
          · exfalso; rw [hcr] at hlen; simp at hlen
          · rfl
        rw [hrne]
        simp only [Bool.false_eq_true, if_false]
        by_cases hrb : rest.head? = some 'b'
        · rw [if_pos hrb]
          -- the `0b` clause of `ShaSafe` rules the binary form out
          obtain ⟨d, hdm, hdbad⟩ : ∃ d ∈ rest.tail, ¬(d = '0' ∨ d = '1') := by
            by_contra hforall
            push_neg at hforall
            apply hbin
            obtain ⟨r0, rtl, hr⟩ := List.exists_cons_of_ne_nil
              (show rest ≠ [] by intro he; rw [he] at hrb; simp at hrb)
            have hr0 : r0 = 'b' := by rw [hr] at hrb; simpa using hrb
            constructor
            · rw [hcr, hc0, hr, hr0]
              simp [List.isPrefixOf]
            · intro d hd
              rw [hcr] at hd
              have : d ∈ rest.tail := by rw [hr]; simpa [hc0, hr, hr0] using hd
              exact hforall d this
          rw [if_neg ?_]
          intro hcond
          simp only [Bool.and_eq_true, List.all_eq_true] at hcond
          have hd2 := hcond.2 d hdm
          have hdhex : hexLower d = true :=
            hall d (by rw [hcr]; exact List.mem_cons_of_mem c (List.mem_of_mem_tail hdm))
          simp only [decide_eq_true_eq] at hd2
          push_neg at hdbad
          rcases hd2 with h1 | h1 | h1
          · exact hdbad.1 h1
          · exact hdbad.2 h1
          · exact (hexLower_ne hdhex).1 h1
        · rw [if_neg hrb]
          have hrx : rest.head? ≠ some 'x' := by
            rcases rest with _ | ⟨r0, rtl⟩
            · simp
            · have : hexLower r0 = true :=
                hall r0 (by rw [hcr]; exact List.mem_cons_of_mem c (List.mem_cons_self r0 rtl))
              simpa using (hexLower_ne this).2.1
          rw [if_neg hrx]
          rw [if_neg ?_]
          intro hcond
          simp only [List.all_eq_true] at hcond
          have hw7 := hcond w hwrest
          simp only [decide_eq_true_eq] at hw7
          rcases hw7 with ⟨-, h7⟩ | h7
          · exact absurd (le_trans hw1 h7) (by decide)
          · exact absurd h7 (by subst h7; revert hw1; decide)
      · rw [if_neg hc0]
        have hc19 : '1' ≤ c ∧ c ≤ '9' := by
          unfold Char.isDigit at hcd
          simp only [Bool.and_eq_true, decide_eq_true_eq] at hcd
          have hge : 48 ≤ c.val.toNat := hcd.1
          have hc0n : c.val.toNat ≠ 48 := by
            intro he
            exact hc0 (Char.ext (UInt32.ext he))
          exact ⟨show 49 ≤ c.val.toNat by omega, hcd.2⟩
        rw [if_pos hc19]
        rw [if_neg ?_]
        intro hcond
        simp only [List.all_eq_true] at hcond
        have hwd := hcond w hwrest
        simp only [Bool.or_eq_true, decide_eq_true_eq] at hwd
        rcases hwd with h1 | h1
        · rw [hex_letter_not_digit hw1] at h1; exact Bool.false_ne_true h1
        · exact absurd h1 (by subst h1; revert hw1; decide)
    · refine intTok_none_of_firstOk ?_ rest
      have hcz : c ≤ 'z' := le_trans hca.2 (by decide)
      simp [firstOk, isAsciiAlpha, hca.1, hcz]
  unfold scalarResolve
  rw [if_neg (by simp [hne]), if_neg (fun hm => hmem (List.mem_append_left _ hm)),
    if_neg (fun hm => hmem (List.mem_append_right _ hm)), hint,
    asString_of_data]

/-! ### `key: value` line parsing -/

theorem splitFirstColon_append {pre : List Char} (post : List Char)
    (h : ':' ∉ pre) : splitFirstColon (pre ++ ':' :: post) = some (pre, post) := by
  induction pre with
  | nil => simp [splitFirstColon]
  | cons c cs ih =>
    have hc : c ≠ ':' := fun he => h (he ▸ List.mem_cons_self c cs)
    simp only [List.cons_append, splitFirstColon, List.append_eq]
    rw [if_neg hc, ih (fun hm => h (List.mem_cons_of_mem c hm))]
    rfl

theorem dropWhile_eq_self_of_head {p : Char → Bool} {v : List Char}
    (h : ∀ c, v.head? = some c → p c = false) : v.dropWhile p = v := by
  cases v with
  | nil => rfl
  | cons c r =>
    rw [List.dropWhile_cons, if_neg]
    simp [h c rfl]

theorem pyStrip_eq_self {v : List Char}
    (hhead : ∀ c, v.head? = some c → isPySpace c = false)
    (hlast : ∀ c, v.getLast? = some c → isPySpace c = false) :
    pyStrip v = v := by
  unfold pyStrip
  rw [dropWhile_eq_self_of_head hhead, dropWhile_eq_self_of_head ?_,
    List.reverse_reverse]
  intro c hc
  rw [List.head?_reverse] at hc
  exact hlast c hc

theorem hasColonSpace_false {v : List Char} (h : ':' ∉ v) :
    hasColonSpace v = false := by
  induction v with
  | nil => rfl
  | cons c r ih =>
    have hc : c ≠ ':' := fun he => h (he ▸ List.mem_cons_self c r)
    simp only [hasColonSpace]
    rw [ih (fun hm => h (List.mem_cons_of_mem c hm))]
    simp [hc]

theorem parseKVLine_safe (key : String) (v : List Char) (hk : ':' ∉ key.data)
    (hv : ':' ∉ v)
    (hhead : ∀ c, v.head? = some c → isPySpace c = false)
    (hlast : ∀ c, v.getLast? = some c → isPySpace c = false) :
    parseKVLine (key.data ++ ':' :: ' ' :: v) = some (key, v) := by
  unfold parseKVLine
  rw [splitFirstColon_append (' ' :: v) hk]
  simp only [List.isEmpty_cons, Bool.false_eq_true, if_false, List.head?_cons,
    List.tail_cons]
  rw [if_pos trivial, hasColonSpace_false hv]
  simp only [Bool.false_eq_true, if_false]
  rw [pyStrip_eq_self hhead hlast, asString_of_data]

theorem parseKVLine_emptyval (key : String) (hk : ':' ∉ key.data) :
    parseKVLine (key.data ++ [':', ' ']) = some (key, []) := by
  have h := parseKVLine_safe key [] hk (by simp) (by simp) (by simp)
  simpa using h

theorem parseKVLine_keyonly (key : String) (hk : ':' ∉ key.data) :
    parseKVLine (key.data ++ [':']) = some (key, []) := by
  unfold parseKVLine
  rw [show key.data ++ [':'] = key.data ++ ':' :: [] from rfl,
    splitFirstColon_append [] hk]
  simp [asString_of_data]

/-! ### Stepping the block parser -/

theorem yamlLines_nil (acc : List (String × YVal)) (pend : Option PendSeq) :
    yamlLines acc pend [] = some (closePend acc pend) := rfl

theorem yamlLines_top_scalar (acc : List (String × YVal)) {l : List Char}
    (rest : List (List Char)) (key : String) (v : List Char)
    (hpk : parseKVLine l = some (key, v)) (hne : v.isEmpty = false)
    {c : Char} (hhead : l.head? = some c) (hsp : c ≠ ' ') (hdash : c ≠ '-') :
    yamlLines acc none (l :: rest) =
      yamlLines (acc ++ [(key, .scalar (scalarResolve v))]) none rest := by
  obtain ⟨l', hl⟩ : ∃ l', l = c :: l' := by
    cases l with
    | nil => simp at hhead
    | cons a t =>
      simp only [List.head?_cons, Option.some.injEq] at hhead
      exact ⟨t, by rw [hhead]⟩
  subst hl
  simp only [yamlLines]
  rw [if_neg (by simp), if_neg (by simp), if_neg (by simp [hsp]),
    if_neg (by simp [List.isPrefixOf, Ne.symm hdash]), hpk]
  simp only [closePend, hne, Bool.false_eq_true, if_false]

theorem yamlLines_top_emptyval (acc : List (String × YVal)) {l : List Char}
    (rest : List (List Char)) (key : String)
    (hpk : parseKVLine l = some (key, []))
    {c : Char} (hhead : l.head? = some c) (hsp : c ≠ ' ') (hdash : c ≠ '-') :
    yamlLines acc none (l :: rest) = yamlLines acc (some (key, [], none)) rest := by
  obtain ⟨l', hl⟩ : ∃ l', l = c :: l' := by
    cases l with
    | nil => simp at hhead
    | cons a t =>
      simp only [List.head?_cons, Option.some.injEq] at hhead
      exact ⟨t, by rw [hhead]⟩
  subst hl
  simp only [yamlLines]
  rw [if_neg (by simp), if_neg (by simp), if_neg (by simp [hsp]),
    if_neg (by simp [List.isPrefixOf, Ne.symm hdash]), hpk]
  simp only [closePend, List.isEmpty_nil, if_true]

theorem yamlLines_item_new (acc : List (String × YVal)) (k : String)
    (its : List YItem) (cur : Option YItem) {l : List Char}
    (rest : List (List Char)) (k2 : String) (v : List Char)
    (hpre : "  - ".data.isPrefixOf l = true)
    (hpk : parseKVLine (l.drop 4) = some (k2, v)) :
    yamlLines acc (some (k, its, cur)) (l :: rest) =
      yamlLines acc (some (k, its ++ cur.toList, some [(k2, scalarResolve v)])) rest := by
  simp only [yamlLines]
  rw [if_pos (by simp [hpre]), hpk]

theorem yamlLines_item_cont (acc : List (String × YVal)) (k : String)
    (its : List YItem) (cur : YItem) {l : List Char}
    (rest : List (List Char)) (k2 : String) (v : List Char)
    (hnpre : "  - ".data.isPrefixOf l = false)
    (hpre4 : "    ".data.isPrefixOf l = true)
    (hpk : parseKVLine (l.drop 4) = some (k2, v)) :
    yamlLines acc (some (k, its, some cur)) (l :: rest) =
      yamlLines acc (some (k, its, some (cur ++ [(k2, scalarResolve v)]))) rest := by
  simp only [yamlLines]
  rw [if_neg (by simp [hnpre]), if_pos (by simp [hpre4]), hpk]

/-! ### Safety conditions in usable form -/

theorem hexLower_not_space {c : Char} (h : hexLower c = true) :
    isPySpace c = false := by
  rcases hps : isPySpace c with _ | _
  · rfl
  · exfalso
    unfold isPySpace at hps
    simp only [Bool.or_eq_true, decide_eq_true_eq] at hps
    rcases hps with ((((h1 | h1) | h1) | h1) | h1) | h1 <;> subst h1 <;>
      exact absurd h (by decide)

theorem valSafe_conds {t : String} (h : ValSafe t) :
    ':' ∉ t.data ∧ (∀ c, t.data.head? = some c → isPySpace c = false) ∧
      (∀ c, t.data.getLast? = some c → isPySpace c = false) ∧
      '\n' ∉ t.data ∧ '>' ∉ t.data ∧ '<' ∉ t.data := by
  obtain ⟨hne, hall, hfirst, hlast, hword⟩ := h
  refine ⟨fun hm => (plainChar_not_special (hall _ hm)).2.2.2 rfl, ?_, ?_,
    fun hm => (plainChar_not_special (hall _ hm)).2.2.1 rfl,
    fun hm => (plainChar_not_special (hall _ hm)).2.1 rfl,
    fun hm => (plainChar_not_special (hall _ hm)).1 rfl⟩
  · intro c hc
    exact firstOk_not_space (hfirst c hc)
  · intro c hc
    have hcm : c ∈ t.data := List.mem_of_mem_getLast? hc
    refine plainChar_not_space (hall c hcm) ?_
    intro he
    subst he
    exact hlast hc

theorem shaSafe_conds {s : String} (h : ShaSafe s) :
    ':' ∉ s.data ∧ (∀ c, s.data.head? = some c → isPySpace c = false) ∧
      (∀ c, s.data.getLast? = some c → isPySpace c = false) ∧
      '\n' ∉ s.data ∧ '>' ∉ s.data ∧ '<' ∉ s.data := by
  obtain ⟨hlen, hall, -, -⟩ := h
  refine ⟨fun hm => absurd (hall _ hm) (by decide), ?_, ?_,
    fun hm => absurd (hall _ hm) (by decide),
    fun hm => absurd (hall _ hm) (by decide),
    fun hm => absurd (hall _ hm) (by decide)⟩
  · intro c hc
    exact hexLower_not_space (hall c (List.mem_of_mem_head? hc))
  · intro c hc
    exact hexLower_not_space (hall c (List.mem_of_mem_getLast? hc))

theorem parseKV_valLine (key t : String) (l : List Char)
    (hl : l = key.data ++ ':' :: ' ' :: t.data) (hk : ':' ∉ key.data)
    (h : ValSafe t) : parseKVLine l = some (key, t.data) := by
  subst hl
  obtain ⟨h1, h2, h3, -, -, -⟩ := valSafe_conds h
  exact parseKVLine_safe key t.data hk h1 h2 h3

theorem parseKV_shaLine (key s : String) (l : List Char)
    (hl : l = key.data ++ ':' :: ' ' :: s.data) (hk : ':' ∉ key.data)
    (h : ShaSafe s) : parseKVLine l = some (key, s.data) := by
  subst hl
  obtain ⟨h1, h2, h3, -, -, -⟩ := shaSafe_conds h
  exact parseKVLine_safe key s.data hk h1 h2 h3

/-! ### The `commits:` item block -/

theorem yamlLines_items (acc : List (String × YVal)) (k : String)
    (its : List YItem) (cur : Option YItem) (cs : List (String × String))
    (hsafe : ∀ p ∈ cs, ShaSafe p.1 ∧ ValSafe p.2) :
    yamlLines acc (some (k, its, cur))
        (cs.flatMap (fun p =>
          [("  - sha: " ++ p.1).data, ("    repo: " ++ p.2).data])) =
      some (closePend acc (some (k, its ++ cur.toList ++
        cs.map (fun p => [("sha", SVal.str p.1), ("repo", SVal.str p.2)]), none))) := by
  induction cs generalizing its cur with
  | nil =>
    rw [List.flatMap_nil, yamlLines_nil]
    simp [closePend]
  | cons p rest ih =>
    obtain ⟨s, r⟩ := p
    obtain ⟨hs, hr⟩ := hsafe (s, r) (List.mem_cons_self _ _)
    rw [List.flatMap_cons, List.cons_append, List.cons_append, List.nil_append]
    rw [yamlLines_item_new acc k its cur _ "sha" s.data (by rfl)
      (parseKV_shaLine "sha" s (("  - sha: " ++ s).data.drop 4) (by rfl)
        (by decide) hs)]
    rw [yamlLines_item_cont acc k (its ++ cur.toList)
      [("sha", scalarResolve s.data)] _ "repo" r.data (by rfl) (by rfl)
      (parseKV_valLine "repo" r (("    repo: " ++ r).data.drop 4) (by rfl)
        (by decide) hr)]
    simp only [List.cons_append, List.nil_append]
    rw [ih (its ++ cur.toList)
      (some [("sha", scalarResolve s.data), ("repo", scalarResolve r.data)])
      (fun q hq => hsafe q (List.mem_cons_of_mem _ hq))]
    rw [scalarResolve_shaSafe hs, scalarResolve_valSafe hr]
    simp [List.append_assoc]

/-! ### Locating the metadata comment -/

theorem dropPrefix?_append (p l : List Char) : (p ++ l).dropPrefix? p = some l := by
  induction p with
  | nil => cases l <;> rfl
  | cons c cs ih => simp [List.dropPrefix?, ih]

theorem findMetaBlock_skip {pre : List Char} (rest : List Char) (h : '<' ∉ pre) :
    findMetaBlock (pre ++ rest) = findMetaBlock rest := by
  induction pre with
  | nil => rfl
  | cons c cs ih =>
    have hc : c ≠ '<' := fun he => h (he ▸ List.mem_cons_self c cs)
    have hmm : matchMetaAt (c :: (cs ++ rest)) = none := by
      unfold matchMetaAt
      rw [show ("<!--" : String).data = '<' :: "!--".data from rfl]
      simp [List.dropPrefix?, hc]
    simp only [List.cons_append, findMetaBlock, List.append_eq]
    rw [hmm]
    exact ih (fun hm => h (List.mem_cons_of_mem c hm))

theorem findMetaBlock_found {c : Char} {r g : List Char}
    (hm : matchMetaAt (c :: r) = some g) : findMetaBlock (c :: r) = some g := by
  simp only [findMetaBlock]
  rw [hm]

theorem splitAtClose_append (inn tl : List Char) (h : '>' ∉ inn) :
    splitAtClose (inn ++ '\n' :: '-' :: '-' :: '>' :: tl) = some inn := by
  induction inn with
  | nil =>
    simp only [List.nil_append, splitAtClose]
    rw [if_pos (by simp [List.isPrefixOf])]
  | cons c cs ih =>
    simp only [List.cons_append, splitAtClose, List.append_eq]
    rw [if_neg ?_, ih (fun hm => h (List.mem_cons_of_mem c hm))]
    · rfl
    · intro hpre
      rcases cs with _ | ⟨x, _ | ⟨y, _ | ⟨z, w⟩⟩⟩ <;>
        simp only [List.nil_append, List.cons_append, List.isPrefixOf,
          Bool.and_eq_true, beq_iff_eq,
          (show ("\n-->" : String).data = ['\n', '-', '-', '>'] from rfl)] at hpre
      · exact absurd hpre.2.1 (by decide)
      · exact absurd hpre.2.2.1 (by decide)
      · exact absurd hpre.2.2.2.1 (by decide)
      · apply h
        rw [← hpre.2.2.2.1]
        exact List.mem_cons_of_mem c (List.mem_cons_of_mem x
          (List.mem_cons_of_mem y (List.mem_cons_self _ _)))

theorem matchMetaAt_meta (inner tl : List Char) (c0 : Char)
    (hh : inner.head? = some c0) (hc0 : isPySpace c0 = false) (hgt : '>' ∉ inner) :
    matchMetaAt ("<!-- blog-research-meta".data ++
        '\n' :: inner ++ '\n' :: '-' :: '-' :: '>' :: tl) = some inner := by
  obtain ⟨inner', hi⟩ : ∃ inner', inner = c0 :: inner' := by
    cases inner with
    | nil => simp at hh
    | cons a t =>
      simp only [List.head?_cons, Option.some.injEq] at hh
      exact ⟨t, by rw [hh]⟩
  unfold matchMetaAt
  rw [show "<!-- blog-research-meta".data ++
        '\n' :: inner ++ '\n' :: '-' :: '-' :: '>' :: tl =
      "<!--".data ++ (' ' :: ("blog-research-meta".data ++
        ('\n' :: inner ++ '\n' :: '-' :: '-' :: '>' :: tl))) by
    simp [List.append_assoc]]
  rw [dropPrefix?_append]
  simp only [Option.some_bind]
  rw [show (' ' :: ("blog-research-meta".data ++
        ('\n' :: inner ++ '\n' :: '-' :: '-' :: '>' :: tl))).dropWhile isPySpace =
      "blog-research-meta".data ++
        ('\n' :: inner ++ '\n' :: '-' :: '-' :: '>' :: tl) by
    rw [List.dropWhile_cons, if_pos (by decide)]
    rfl]
  rw [dropPrefix?_append]
  simp only [Option.some_bind]
  have htake : ('\n' :: (inner ++ '\n' :: '-' :: '-' :: '>' :: tl)).takeWhile
      isPySpace = ['\n'] := by
    rw [hi, List.cons_append, List.takeWhile_cons, if_pos (by decide),
      List.takeWhile_cons, if_neg (by simp [hc0])]
  rw [show ('\n' :: inner ++ '\n' :: '-' :: '-' :: '>' :: tl : List Char) =
    '\n' :: (inner ++ '\n' :: '-' :: '-' :: '>' :: tl) from rfl]
  rw [htake]
  rw [if_pos (by decide)]
  rw [show ('\n' :: (inner ++ '\n' :: '-' :: '-' :: '>' :: tl)).drop
      (['\n'] : List Char).length = inner ++ '\n' :: '-' :: '-' :: '>' :: tl by simp]
  rw [show afterLastNl ['\n'] = [] from rfl, List.nil_append]
  exact splitAtClose_append inner tl hgt

/-! ### Assembling the round trip -/

theorem intercalate_cons {α : Type} (s : α) (x : List α) (xs : List (List α))
    (h : xs ≠ []) :
    List.intercalate [s] (x :: xs) = x ++ s :: List.intercalate [s] xs := by
  cases xs with
  | nil => exact absurd rfl h
  | cons y t => simp [List.intercalate, List.intersperse]

theorem mem_intercalate_single {a s : Char} {ls : List (List Char)}
    (hm : a ∈ List.intercalate [s] ls) : a = s ∨ ∃ l ∈ ls, a ∈ l := by
  induction ls with
  | nil => simp [List.intercalate, List.intersperse] at hm
  | cons x t ih =>
    cases t with
    | nil =>
      simp only [List.intercalate, List.intersperse, List.flatten,
        List.append_nil] at hm
      exact Or.inr ⟨x, List.mem_cons_self x [], hm⟩
    | cons y u =>
      rw [intercalate_cons s x (y :: u) (by simp)] at hm
      rcases List.mem_append.mp hm with h1 | h1
      · exact Or.inr ⟨x, List.mem_cons_self _ _, h1⟩
      · rcases List.mem_cons.mp h1 with h2 | h2
        · exact Or.inl h2
        · rcases ih h2 with h3 | ⟨l, hl, hal⟩
          · exact Or.inl h3
          · exact Or.inr ⟨l, List.mem_cons_of_mem x hl, hal⟩

theorem line_chars_val {pre : List Char} (t : String)
    (hpre : '\n' ∉ pre ∧ '>' ∉ pre) (htv : ValSafe t) :
    '\n' ∉ (pre ++ t.data) ∧ '>' ∉ (pre ++ t.data) := by
  obtain ⟨-, -, -, h1, h2, -⟩ := valSafe_conds htv
  constructor <;> intro hm <;> rcases List.mem_append.mp hm with hx | hx
  · exact hpre.1 hx
  · exact h1 hx
  · exact hpre.2 hx
  · exact h2 hx

theorem line_chars_sha {pre : List Char} (t : String)
    (hpre : '\n' ∉ pre ∧ '>' ∉ pre) (hts : ShaSafe t) :
    '\n' ∉ (pre ++ t.data) ∧ '>' ∉ (pre ++ t.data) := by
  obtain ⟨-, -, -, h1, h2, -⟩ := shaSafe_conds hts
  constructor <;> intro hm <;> rcases List.mem_append.mp hm with hx | hx
  · exact hpre.1 hx
  · exact h1 hx
  · exact hpre.2 hx
  · exact h2 hx

theorem metaLines_chars {m : ResearchMetadata} (h : MetaSafe m) :
    ∀ l ∈ (metaLines m).map String.data, '\n' ∉ l ∧ '>' ∉ l := by
  obtain ⟨ht, hp, hc, ha, hr, hcm⟩ := h
  intro l hl
  simp only [metaLines, List.map_append, List.mem_append] at hl
  rcases hl with hl | hl
  · simp only [List.map_cons, List.map_nil, List.mem_cons,
      List.not_mem_nil, or_false] at hl
    rcases hl with hl | hl | hl | hl | hl <;> subst hl
    · exact line_chars_val m.topic (by decide) ht
    · exact line_chars_val m.period (by decide) hp
    · exact line_chars_val m.client (by decide) hc
    · exact line_chars_val m.author (by decide) ha
    · exact line_chars_val m.root (by decide) hr
  · by_cases hce : m.commits.isEmpty
    · rw [if_pos hce] at hl
      simp at hl
    · rw [if_neg hce] at hl
      simp only [List.map_cons, List.mem_cons] at hl
      rcases hl with hl | hl
      · subst hl; exact ⟨by decide, by decide⟩
      · rw [List.map_flatMap] at hl
        obtain ⟨p, hpm, hpl⟩ := List.mem_flatMap.mp hl
        obtain ⟨hps, hpv⟩ := hcm p hpm
        simp only [List.map_cons, List.map_nil, List.mem_cons,
          List.not_mem_nil, or_false] at hpl
        rcases hpl with hpl | hpl <;> subst hpl
        · exact line_chars_sha p.1 (by decide) hps
        · exact line_chars_val p.2 (by decide) hpv

theorem itemToPair_mk (a b : SVal) :
    itemToPair [("sha", a), ("repo", b)] = some (a, b) := rfl

theorem filterMap_items (cs : List (String × String)) :
    (cs.map (fun p => [("sha", SVal.str p.1), ("repo", SVal.str p.2)])).filterMap
      itemToPair = cs.map (fun p => (SVal.str p.1, SVal.str p.2)) := by
  induction cs with
  | nil => rfl
  | cons p rest ih =>
    simp only [List.map_cons, List.filterMap_cons, itemToPair_mk, ih]

theorem metaLines_ne_nil (m : ResearchMetadata) : (metaLines m).map String.data ≠ [] := by
  simp [metaLines]

/-- The parsed mapping produced for a safe artifact's metadata lines. -/
theorem yamlLines_metaLines {m : ResearchMetadata} (h : MetaSafe m) :
    yamlLines [] none ((metaLines m).map String.data) =
      some ([("topic", .scalar (.str m.topic)), ("period", .scalar (.str m.period)),
             ("client", .scalar (.str m.client)), ("author", .scalar (.str m.author)),
             ("root", .scalar (.str m.root))] ++
        (if m.commits.isEmpty then []
         else [("commits", YVal.seq (m.commits.map (fun p =>
           [("sha", SVal.str p.1), ("repo", SVal.str p.2)])))])) := by
  obtain ⟨ht, hp, hc, ha, hr, hcm⟩ := h
  have hne : ∀ t : String, ValSafe t → t.data.isEmpty = false := by
    intro t hts
    rcases hd : t.data with _ | _
    · exact absurd hd hts.1
    · rfl
  simp only [metaLines, List.map_append, List.map_cons, List.map_nil,
    List.cons_append, List.nil_append]
  rw [yamlLines_top_scalar [] _ "topic" m.topic.data
    (parseKV_valLine "topic" m.topic (("topic: " ++ m.topic).data) rfl (by decide) ht) (hne _ ht)
    (show (("topic: " ++ m.topic).data).head? = some 't' from rfl)
    (by decide) (by decide)]
  rw [yamlLines_top_scalar _ _ "period" m.period.data
    (parseKV_valLine "period" m.period (("period: " ++ m.period).data) rfl (by decide) hp) (hne _ hp)
    (show (("period: " ++ m.period).data).head? = some 'p' from rfl)
    (by decide) (by decide)]
  rw [yamlLines_top_scalar _ _ "client" m.client.data
    (parseKV_valLine "client" m.client (("client: " ++ m.client).data) rfl (by decide) hc) (hne _ hc)
    (show (("client: " ++ m.client).data).head? = some 'c' from rfl)
    (by decide) (by decide)]
  rw [yamlLines_top_scalar _ _ "author" m.author.data
    (parseKV_valLine "author" m.author (("author: " ++ m.author).data) rfl (by decide) ha) (hne _ ha)
    (show (("author: " ++ m.author).data).head? = some 'a' from rfl)
    (by decide) (by decide)]
  rw [yamlLines_top_scalar _ _ "root" m.root.data
    (parseKV_valLine "root" m.root (("root: " ++ m.root).data) rfl (by decide) hr) (hne _ hr)
    (show (("root: " ++ m.root).data).head? = some 'r' from rfl)
    (by decide) (by decide)]
  rw [scalarResolve_valSafe ht, scalarResolve_valSafe hp, scalarResolve_valSafe hc,
    scalarResolve_valSafe ha, scalarResolve_valSafe hr]
  by_cases hce : m.commits.isEmpty
  · rw [if_pos hce, if_pos hce]
    simp only [List.map_nil, yamlLines_nil, closePend]
    simp
  · rw [if_neg hce, if_neg hce]
    simp only [List.map_cons, List.map_flatMap, List.map_nil]
    rw [yamlLines_top_emptyval _ _ "commits"
      (show parseKVLine (("commits:" : String).data) = some ("commits", []) by
        rw [show ("commits:" : String).data = "commits".data ++ [':'] from rfl]
        exact parseKVLine_keyonly "commits" (by decide))
      (show (("commits:" : String).data).head? = some 'c' from rfl)
      (by decide) (by decide)]
    rw [yamlLines_items _ "commits" [] none m.commits hcm]
    simp only [closePend, List.nil_append]
    rw [if_neg ?_]
    · simp
    · intro hemp
      rw [List.isEmpty_iff] at hemp
      rcases hd : m.commits with _ | _
      · rw [hd] at hce; simp at hce
      · rw [hd] at hemp; simp at hemp


/-! ### The document's character structure -/

theorem intercalate_append_last (s : Char) (ls : List (List Char)) (x : List Char)
    (h : ls ≠ []) :
    List.intercalate [s] (ls ++ [x]) = List.intercalate [s] ls ++ s :: x := by
  induction ls with
  | nil => exact absurd rfl h
  | cons y t ih =>
    cases t with
    | nil => simp [List.intercalate, List.intersperse]
    | cons z u =>
      rw [List.cons_append, intercalate_cons s y ((z :: u) ++ [x]) (by simp),
        ih (by simp), intercalate_cons s y (z :: u) (by simp),
        List.append_assoc]
      rfl

theorem metaInner_eq (m : ResearchMetadata) :
    metaInner m = ("topic: " ++ m.topic).data ++ '\n' ::
      List.intercalate ['\n']
        (("period: " ++ m.period).data :: ("client: " ++ m.client).data ::
         ("author: " ++ m.author).data :: ("root: " ++ m.root).data ::
         (if m.commits.isEmpty then [] else "commits:" ::
           m.commits.flatMap
             (fun p => ["  - sha: " ++ p.1, "    repo: " ++ p.2])).map
               String.data) := by
  unfold metaInner metaLines
  simp only [List.map_append, List.map_cons, List.map_nil, List.cons_append,
    List.nil_append]
  exact intercalate_cons '\n' _ _ (by simp)

theorem metaInner_head (m : ResearchMetadata) : (metaInner m).head? = some 't' := by
  rw [metaInner_eq]
  rfl

theorem metaInner_no_gt {m : ResearchMetadata} (h : MetaSafe m) :
    '>' ∉ metaInner m := by
  intro hm
  rcases mem_intercalate_single hm with he | ⟨l, hl, hml⟩
  · exact absurd he (by decide)
  · exact (metaLines_chars h l hl).2 hml

theorem splitNl_metaInner {m : ResearchMetadata} (h : MetaSafe m) :
    splitNl (metaInner m) = (metaLines m).map String.data :=
  List.splitOn_intercalate ((metaLines m).map String.data) '\n'
    (fun l hl => (metaLines_chars h l hl).1) (metaLines_ne_nil m)

theorem format_rm_data (m : ResearchMetadata) :
    (format_research_metadata m).data =
      "<!-- blog-research-meta".data ++
        '\n' :: (metaInner m ++ '\n' :: '-' :: '-' :: '>' :: []) := by
  unfold format_research_metadata joinLines metaInner
  rw [show (["<!-- blog-research-meta"] ++ metaLines m ++ ["-->"]).map String.data =
      "<!-- blog-research-meta".data ::
        ((metaLines m).map String.data ++ ["-->".data]) by simp]
  rw [intercalate_cons '\n' _ _ (by simp),
    intercalate_append_last '\n' _ _ (metaLines_ne_nil m)]
  rfl

theorem researchDoc_data (m : ResearchMetadata) (content : String) :
    (researchDoc m content).data =
      ("# Research: ".data ++ m.topic.data ++ ['\n', '\n']) ++
        ("<!-- blog-research-meta".data ++
          '\n' :: (metaInner m ++
            '\n' :: '-' :: '-' :: '>' :: ('\n' :: '\n' :: content.data))) := by
  unfold researchDoc
  simp only [String.data_append, format_rm_data, List.append_assoc,
    List.cons_append, List.nil_append]

theorem researchDoc_findMeta (m : ResearchMetadata) (content : String)
    (h : MetaSafe m) :
    findMetaBlock (researchDoc m content).data = some (metaInner m) := by
  have hpre : '<' ∉ ("# Research: ".data ++ m.topic.data ++ ['\n', '\n']) := by
    intro hm
    rcases List.mem_append.mp hm with hm | hm
    · rcases List.mem_append.mp hm with hm | hm
      · exact absurd hm (by decide)
      · exact (valSafe_conds h.1).2.2.2.2.2 hm
    · exact absurd hm (by decide)
  rw [researchDoc_data, findMetaBlock_skip _ hpre]
  exact findMetaBlock_found
    (matchMetaAt_meta (metaInner m) ('\n' :: '\n' :: content.data) 't'
      (metaInner_head m) (by decide) (metaInner_no_gt h))

/-! ### Unfolding the decoder once the block is located -/

theorem parse_rm_step {s : String} {b : List Char}
    (hf : findMetaBlock s.data = some b) :
    parse_research_metadata s =
      (match yamlLines [] none (splitNl b) with
       | Option.none => none
       | some data =>
         if data.isEmpty then none
         else
           match commitsOf data with
           | Option.none => none
           | some commits =>
             some { topic := pyGet data "topic", period := pyGet data "period",
                    client := pyGet data "client", author := pyGet data "author",
                    root := pyGet data "root", commits := commits }) := by
  unfold parse_research_metadata
  rw [hf]

theorem parse_rm_step2 {s : String} {b : List Char} {data : List (String × YVal)}
    (hf : findMetaBlock s.data = some b)
    (hy : yamlLines [] none (splitNl b) = some data) :
    parse_research_metadata s =
      (if data.isEmpty then none
       else
         match commitsOf data with
         | Option.none => none
         | some commits =>
           some { topic := pyGet data "topic", period := pyGet data "period",
                  client := pyGet data "client", author := pyGet data "author",
                  root := pyGet data "root", commits := commits }) := by
  rw [parse_rm_step hf, hy]

/-- C1 (amended): encode-then-decode reproduces the artifact for every
well-formed artifact in the safe fragment — every scalar field a
nonempty plain string that YAML resolves back to itself, and every
commit entry a lowercase hex id-prefix with a nonempty plain repo
name.  (The unrestricted claim is false: see the counterexample with
an empty repo hint.) -/
theorem c1_roundtrip (m : ResearchMetadata) (content : String) (h : MetaSafe m) :
    parse_research_metadata (researchDoc m content) = some (PMeta.ofMeta m) := by
  have hy := yamlLines_metaLines h
  by_cases hce : m.commits.isEmpty
  · rw [if_pos hce] at hy
    rw [parse_rm_step2 (researchDoc_findMeta m content h)
      (by rw [splitNl_metaInner h]; exact hy)]
    have hmc : m.commits = [] := List.isEmpty_iff.mp hce
    have hof : PMeta.ofMeta m =
        { topic := .scalar (.str m.topic), period := .scalar (.str m.period),
          client := .scalar (.str m.client), author := .scalar (.str m.author),
          root := .scalar (.str m.root), commits := [] } := by
      simp only [PMeta.ofMeta, hmc, List.map_nil]
    rw [hof]
    rfl
  · rw [if_neg hce] at hy
    rw [parse_rm_step2 (researchDoc_findMeta m content h)
      (by rw [splitNl_metaInner h]; exact hy)]
    have hof : PMeta.ofMeta m =
        { topic := .scalar (.str m.topic), period := .scalar (.str m.period),
          client := .scalar (.str m.client), author := .scalar (.str m.author),
          root := .scalar (.str m.root),
          commits := (m.commits.map (fun p =>
            [("sha", SVal.str p.1), ("repo", SVal.str p.2)])).filterMap
              itemToPair } := by
      simp only [PMeta.ofMeta, filterMap_items]
    rw [hof]
    rfl

/-- Witness for C1: a concrete safe artifact round-trips through the
encoded document. -/
theorem c1_roundtrip_witness :
    MetaSafe ⟨"Widget Sync", "July 2025", "Acme", "jane", "/srv/work",
        [("abc123f", "widget")]⟩ ∧
      parse_research_metadata (researchDoc
          ⟨"Widget Sync", "July 2025", "Acme", "jane", "/srv/work",
            [("abc123f", "widget")]⟩ "Some analysis.") =
        some (PMeta.ofMeta ⟨"Widget Sync", "July 2025", "Acme", "jane",
          "/srv/work", [("abc123f", "widget")]⟩) :=
  ⟨by unfold MetaSafe ValSafe ShaSafe; decide,
   c1_roundtrip _ "Some analysis."
     (by unfold MetaSafe ValSafe ShaSafe; decide)⟩

set_option maxRecDepth 16384 in
/-- Counterexample to C1 as stated: an artifact whose commit entry
carries an empty repo hint does not round-trip — the encoder emits a
`repo: ` line with an empty value, which the YAML loader resolves to
`None` rather than the empty string. -/
theorem c1_counterexample :
    parse_research_metadata (researchDoc
        ⟨"Widget", "July", "Acme", "jane", "/srv", [("abc1234", "")]⟩
        "Body.") ≠
      some (PMeta.ofMeta
        ⟨"Widget", "July", "Acme", "jane", "/srv", [("abc1234", "")]⟩) := by
  decide

/-- Witness for C3: the counterexample environment evaluated through
the theorem, with `dry_run` false: stage 2's budget is the original
budget minus the stage-1 cost, and stage 2 issues one call. -/
theorem c3_stage2_budget_witness :
    (cmd_full envC3 llmC3 [] argsC3 "/out").writeBudget =
        argsC3.maxCost -
          (cmd_full envC3 llmC3 [] argsC3 "/out").researchTracker.total_cost ∧
      (cmd_full envC3 llmC3 [] argsC3 "/out").writeTracker.calls = 1 :=
  ⟨(c3_stage2_budget envC3 llmC3 [] argsC3 "/out").1,
   (c3_stage2_budget envC3 llmC3 [] argsC3 "/out").2.2 rfl⟩

/-! ## C6 — extraction: soundness, completeness over the rendered
family, order and duplicate preservation -/

end CodeRecap
